import Mathlib

/-!
Verification of the Deno CI test viewer against its specification.

The definitions below are shallow embeddings of the TypeScript sources:
  - `src/lib/test-results-downloader.ts` (artifact filtering, caching, merging)
  - `src/lib/runs-fetcher.ts` (the `AsyncValue` single-flight wrapper)
  - `src/routes/results/[runId].tsx` (run page controller, statistics,
    normalized slow-test ranking)
  - `src/unnamed/part_007` (insights page controller)

JavaScript numbers are modelled as rationals (`ℚ`) for durations and as
naturals (`ℕ`) for ids and counts.  Optional object fields become `Option`,
and the JavaScript truthiness tests that guard them are modelled explicitly
(`durTruthy`, `flakyTruthy`).  A `Map` with insertion-order iteration is
modelled as an association list to which new keys are appended at the end.
-/

namespace CITestViewer

/-- `RecordedTestResult` from `src/lib/test-results-downloader.ts`:
a recursive test node.  `failed?: true` and `ignored?: true` become `Bool`,
`duration?: number` becomes `Option ℚ`, `flakyCount?: number` becomes
`Option ℕ`, and the optional `subTests` array is a plain list (an absent
array and an empty array are indistinguishable to every consumer, which
only ever iterates it). -/
inductive RecordedTestResult : Type where
  | mk (name : String) (path : String) (duration : Option ℚ)
      (failed : Bool) (ignored : Bool) (flakyCount : Option ℕ)
      (subTests : List RecordedTestResult)

def RecordedTestResult.name : RecordedTestResult → String
  | .mk n _ _ _ _ _ _ => n

def RecordedTestResult.path : RecordedTestResult → String
  | .mk _ p _ _ _ _ _ => p

def RecordedTestResult.duration : RecordedTestResult → Option ℚ
  | .mk _ _ d _ _ _ _ => d

def RecordedTestResult.failed : RecordedTestResult → Bool
  | .mk _ _ _ f _ _ _ => f

def RecordedTestResult.ignored : RecordedTestResult → Bool
  | .mk _ _ _ _ i _ _ => i

def RecordedTestResult.flakyCount : RecordedTestResult → Option ℕ
  | .mk _ _ _ _ _ c _ => c

def RecordedTestResult.subTests : RecordedTestResult → List RecordedTestResult
  | .mk _ _ _ _ _ _ s => s

/-- JavaScript truthiness of the optional `duration` field: present and
nonzero (`if (test.duration)`).  -/
def durTruthy : Option ℚ → Bool
  | none => false
  | some d => d ≠ 0

/-- The guard `test.flakyCount && test.flakyCount > 0`: the field is present,
truthy and positive.  On naturals this is simply presence and positivity. -/
def flakyTruthy : Option ℕ → Bool
  | none => false
  | some n => 0 < n

/-- `ParsedTestResultArtifact` (also `JobTestResults`, which has the same
shape) from `src/lib/test-results-downloader.ts`. -/
structure ParsedTestResultArtifact where
  name : String
  tests : List RecordedTestResult

abbrev JobTestResults := ParsedTestResultArtifact

/-- `Artifact` from `src/lib/github-api-client.ts`. -/
structure Artifact where
  id : ℕ
  name : String
  sizeInBytes : ℕ
  url : String
  archiveDownloadUrl : String
  expired : Bool
  createdAt : String
  updatedAt : String
  expiresAt : String
  deriving DecidableEq

/-- A character the JavaScript regex metacharacter `.` does not match
(line terminators, per ECMA-262). -/
def isLineTerminatorChar (c : Char) : Bool :=
  c = '\n' || c = '\r' || c = Char.ofNat 0x2028 || c = Char.ofNat 0x2029

/-- The test `ARTIFACT_PATTERN.test(name)` for
`ARTIFACT_PATTERN = /^test-results-.*\.json$/` in
`src/lib/test-results-downloader.ts`: the name is the literal
`test-results-`, then any (possibly empty) run of non-line-terminator
characters, then the literal `.json`.  The length bound keeps the two
literals from overlapping.  Characters are handled through `String.data`
so that the predicate evaluates by kernel reduction. -/
def artifactPatternTest (s : String) : Bool :=
  let cs := s.data
  "test-results-".data.isPrefixOf cs && ".json".data.isSuffixOf cs &&
    18 ≤ cs.length &&
    ((cs.drop 13).take (cs.length - 18)).all (fun c => !isLineTerminatorChar c)

/-- The filter step of `RealTestResultsDownloader.downloadForRunId`. -/
def matchingArtifacts (artifacts : List Artifact) : List Artifact :=
  artifacts.filter (fun artifact => artifactPatternTest artifact.name)

/-! ### Association lists standing in for JavaScript `Map`s

A JavaScript `Map` iterates in insertion order, and setting an existing key
updates it in place.  `upsert` mirrors `map.set` combined with the
has/get pattern used throughout the sources: an existing binding is
rewritten by `f`, a missing one is appended at the end with value `init`. -/

def upsert {β : Type} (key : String) (f : β → β) (init : β) :
    List (String × β) → List (String × β)
  | [] => [(key, init)]
  | (k, v) :: rest =>
    if k = key then (k, f v) :: rest else (k, v) :: upsert key f init rest

/-- The keys of an association list, in iteration order. -/
def keysOf {β : Type} (l : List (String × β)) : List String :=
  l.map Prod.fst

/-- First-encounter deduplication of a list of keys: the iteration order of
a `Map` built by inserting the keys left to right. -/
def firstKeys : List String → List String
  | [] => []
  | k :: rest => k :: (firstKeys rest).filter (fun x => x ≠ k)

/-! ### `mergeArtifactsByJob` (`src/lib/test-results-downloader.ts`) -/

/-- `name.split("-")` on the character list: splitting at every dash, with
empty segments kept, and `[""]` for the empty string, exactly as the
JavaScript `String.prototype.split` with a nonempty separator. -/
def splitDash : List Char → List (List Char)
  | [] => [[]]
  | c :: rest =>
    let r := splitDash rest
    if c = '-' then [] :: r
    else
      match r with
      | [] => [[c]]
      | g :: gs => (c :: g) :: gs

/-- `parts.join("-")`. -/
def joinDash (parts : List (List Char)) : List Char :=
  (parts.intersperse ['-']).flatten

/-- The merge key of one artifact name: the first three dash-separated
segments re-joined when the name has four or more segments, the whole name
otherwise (`mergeArtifactsByJob`, lines 104-107 of
`src/lib/test-results-downloader.ts`). -/
def mergeKey (name : String) : String :=
  let parts := splitDash name.data
  if 4 ≤ parts.length then ⟨joinDash (parts.take 3)⟩ else name

/-- The loop of `mergeArtifactsByJob`: the `groups` map (with its
insertion order standing in for `groupOrder`) accumulates each artifact
under its merge key; an existing group gets the tests pushed at the end
(`existing.push(...artifact.tests)`), a new group starts from a copy of
the tests (`[...artifact.tests]`). -/
def mergeGroupsAux (acc : List (String × List RecordedTestResult)) :
    List ParsedTestResultArtifact → List (String × List RecordedTestResult)
  | [] => acc
  | artifact :: rest =>
      mergeGroupsAux
        (upsert (mergeKey artifact.name) (fun ts => ts ++ artifact.tests)
          artifact.tests acc)
        rest

/-- `mergeArtifactsByJob` from `src/lib/test-results-downloader.ts`. -/
def mergeArtifactsByJob (artifacts : List ParsedTestResultArtifact) :
    List ParsedTestResultArtifact :=
  (mergeGroupsAux [] artifacts).map (fun p => ⟨p.1, p.2⟩)

/-- Specification-side description of one merged group: all tests of the
artifacts sharing merge key `k`, concatenated in encounter order. -/
def groupTests (artifacts : List ParsedTestResultArtifact) (k : String) :
    List RecordedTestResult :=
  (artifacts.filter (fun a => mergeKey a.name = k)).flatMap (fun a => a.tests)

end CITestViewer

namespace CITestViewer

theorem keysOf_nil {β : Type} : keysOf ([] : List (String × β)) = [] := rfl

theorem keysOf_cons {β : Type} (p : String × β) (l : List (String × β)) :
    keysOf (p :: l) = p.1 :: keysOf l := rfl

theorem keysOf_append {β : Type} (l₁ l₂ : List (String × β)) :
    keysOf (l₁ ++ l₂) = keysOf l₁ ++ keysOf l₂ := by
  simp [keysOf]

theorem map_upd_of_not_mem {β : Type} (key : String) (f : β → β)
    (acc : List (String × β)) (h : key ∉ keysOf acc) :
    acc.map (fun p => if p.1 = key then (p.1, f p.2) else p) = acc := by
  induction acc with
  | nil => rfl
  | cons p rest ih =>
    obtain ⟨k, v⟩ := p
    have hk : k ≠ key := by
      intro hkk
      exact h (by simp [keysOf, hkk])
    have hrest : key ∉ keysOf rest := by
      intro hmem
      exact h (by simp [keysOf] at hmem ⊢; exact Or.inr hmem)
    simp [hk, ih hrest]

theorem upsert_of_mem {β : Type} (key : String) (f : β → β) (init : β)
    (acc : List (String × β)) (h : key ∈ keysOf acc)
    (hnd : (keysOf acc).Nodup) :
    upsert key f init acc =
      acc.map (fun p => if p.1 = key then (p.1, f p.2) else p) := by
  induction acc with
  | nil => simp [keysOf] at h
  | cons p rest ih =>
    obtain ⟨k, v⟩ := p
    rw [keysOf_cons] at hnd
    by_cases hk : k = key
    · subst hk
      have hrest : k ∉ keysOf rest := (List.nodup_cons.mp hnd).1
      simp [upsert, map_upd_of_not_mem k f rest hrest]
    · have hmem : key ∈ keysOf rest := by
        simp [keysOf] at h ⊢
        rcases h with h | h
        · exact absurd h.symm hk
        · exact h
      simp [upsert, hk, ih hmem (List.nodup_cons.mp hnd).2]

theorem upsert_of_not_mem {β : Type} (key : String) (f : β → β) (init : β)
    (acc : List (String × β)) (h : key ∉ keysOf acc) :
    upsert key f init acc = acc ++ [(key, init)] := by
  induction acc with
  | nil => simp [upsert]
  | cons p rest ih =>
    obtain ⟨k, v⟩ := p
    have hk : k ≠ key := by
      intro hkk
      exact h (by simp [keysOf, hkk])
    have hrest : key ∉ keysOf rest := by
      intro hmem
      exact h (by simp [keysOf] at hmem ⊢; exact Or.inr hmem)
    simp [upsert, hk, ih hrest]

theorem keysOf_upsert {β : Type} (key : String) (f : β → β) (init : β)
    (acc : List (String × β)) :
    keysOf (upsert key f init acc) =
      if key ∈ keysOf acc then keysOf acc else keysOf acc ++ [key] := by
  induction acc with
  | nil => simp [upsert, keysOf]
  | cons p rest ih =>
    obtain ⟨k, v⟩ := p
    by_cases hk : k = key
    · subst hk
      simp [upsert, keysOf]
    · have hne : key ≠ k := fun hkk => hk hkk.symm
      simp only [upsert, if_neg hk, keysOf_cons, ih]
      split
      · next hmem => rw [if_pos (List.mem_cons_of_mem _ hmem)]
      · next hmem => rw [if_neg (by simp [hne, hmem])]; simp

theorem groupTests_nil (k : String) : groupTests [] k = [] := rfl

theorem groupTests_cons (a : ParsedTestResultArtifact)
    (rest : List ParsedTestResultArtifact) (k : String) :
    groupTests (a :: rest) k =
      (if mergeKey a.name = k then a.tests else []) ++ groupTests rest k := by
  by_cases h : mergeKey a.name = k <;> simp [groupTests, h]

theorem firstKeys_cons (k : String) (rest : List String) :
    firstKeys (k :: rest) = k :: (firstKeys rest).filter (fun x => x ≠ k) := rfl

end CITestViewer
namespace CITestViewer

theorem filter_ne_then_not_mem {ka : String} {ks : List String}
    (hka : ka ∈ ks) (l : List String) :
    (l.filter (fun x => x ≠ ka)).filter (fun k => k ∉ ks) =
      l.filter (fun k => k ∉ ks) := by
  induction l with
  | nil => rfl
  | cons x l ihl =>
    by_cases hx : x = ka
    · subst hx
      rw [List.filter_cons_of_neg (by simp), List.filter_cons_of_neg (by simp [hka])]
      exact ihl
    · rw [List.filter_cons_of_pos (by simp [hx])]
      by_cases hxs : x ∈ ks
      · rw [List.filter_cons_of_neg (by simp [hxs]),
          List.filter_cons_of_neg (by simp [hxs])]
        exact ihl
      · rw [List.filter_cons_of_pos (by simp [hxs]),
          List.filter_cons_of_pos (by simp [hxs]), ihl]

theorem filter_not_mem_append {ka : String} {ks : List String} (l : List String) :
    l.filter (fun k => k ∉ ks ++ [ka]) =
      (l.filter (fun x => x ≠ ka)).filter (fun k => k ∉ ks) := by
  induction l with
  | nil => rfl
  | cons x l ihl =>
    by_cases hx : x = ka
    · subst hx
      rw [List.filter_cons_of_neg (by simp), List.filter_cons_of_neg (by simp)]
      exact ihl
    · by_cases hxs : x ∈ ks
      · rw [List.filter_cons_of_neg (by simp [hxs]),
          List.filter_cons_of_pos (by simp [hx]),
          List.filter_cons_of_neg (by simp [hxs])]
        exact ihl
      · rw [List.filter_cons_of_pos (by simp [hx, hxs]),
          List.filter_cons_of_pos (by simp [hx]),
          List.filter_cons_of_pos (by simp [hxs]), ihl]

theorem mergeGroupsAux_spec (arts : List ParsedTestResultArtifact) :
    ∀ acc : List (String × List RecordedTestResult), (keysOf acc).Nodup →
      mergeGroupsAux acc arts =
        acc.map (fun p => (p.1, p.2 ++ groupTests arts p.1)) ++
          ((firstKeys (arts.map (fun a => mergeKey a.name))).filter
            (fun k => k ∉ keysOf acc)).map (fun k => (k, groupTests arts k)) := by
  induction arts with
  | nil =>
    intro acc _
    simp [mergeGroupsAux, groupTests, firstKeys]
  | cons a rest ih =>
    intro acc hnd
    have hstep : mergeGroupsAux acc (a :: rest) =
        mergeGroupsAux
          (upsert (mergeKey a.name) (fun ts => ts ++ a.tests) a.tests acc)
          rest := rfl
    rw [hstep]
    simp only [List.map_cons, firstKeys_cons, groupTests_cons]
    by_cases hmem : mergeKey a.name ∈ keysOf acc
    · have hkeys :
          keysOf (upsert (mergeKey a.name) (fun ts => ts ++ a.tests)
            a.tests acc) = keysOf acc := by
        rw [keysOf_upsert, if_pos hmem]
      have hnd2 :
          (keysOf (upsert (mergeKey a.name) (fun ts => ts ++ a.tests)
            a.tests acc)).Nodup := by rw [hkeys]; exact hnd
      rw [ih _ hnd2]
      simp only [hkeys]
      rw [upsert_of_mem _ _ _ _ hmem hnd]
      rw [List.filter_cons_of_neg (by simp [hmem]), filter_ne_then_not_mem hmem]
      congr 1
      · rw [List.map_map]
        apply List.map_congr_left
        intro p _
        by_cases hp : p.1 = mergeKey a.name
        · have hp2 : mergeKey a.name = p.1 := hp.symm
          simp only [Function.comp_apply, if_pos hp, if_pos hp2]
          simp [List.append_assoc]
        · have hp2 : ¬ mergeKey a.name = p.1 := fun h => hp h.symm
          simp [Function.comp_apply, if_neg hp, hp2]
      · apply List.map_congr_left
        intro k hk
        have hk2 : k ∉ keysOf acc := by
          simpa using (List.mem_filter.mp hk).2
        have hkne : ¬ mergeKey a.name = k := fun h => hk2 (h ▸ hmem)
        simp [hkne]
    · have hkeys :
          keysOf (upsert (mergeKey a.name) (fun ts => ts ++ a.tests)
            a.tests acc) = keysOf acc ++ [mergeKey a.name] := by
        rw [keysOf_upsert, if_neg hmem]
      have hnd2 :
          (keysOf (upsert (mergeKey a.name) (fun ts => ts ++ a.tests)
            a.tests acc)).Nodup := by
        rw [hkeys]
        simp only [List.nodup_append, List.nodup_cons, List.nodup_nil]
        exact ⟨hnd, ⟨by simp, trivial⟩, by
          intro x hx hxk
          simp only [List.mem_singleton] at hxk
          subst hxk
          exact hmem hx⟩
      rw [ih _ hnd2]
      simp only [hkeys]
      rw [upsert_of_not_mem _ _ _ _ hmem]
      rw [List.map_append, List.filter_cons_of_pos (by simp [hmem]),
        filter_not_mem_append]
      rw [List.append_assoc, List.map_cons]
      congr 1
      · apply List.map_congr_left
        intro p hp
        have hpk : p.1 ∈ keysOf acc := List.mem_map_of_mem Prod.fst hp
        have hpne : ¬ mergeKey a.name = p.1 := fun h => hmem (h ▸ hpk)
        simp [hpne]
      · simp only [List.map_cons, List.map_nil, List.singleton_append]
        congr 1
        apply List.map_congr_left
        intro k hk
        have hkne : k ≠ mergeKey a.name := by
          have := (List.mem_filter.mp hk).1
          simpa using (List.mem_filter.mp this).2
        have hkne2 : ¬ mergeKey a.name = k := fun h => hkne h.symm
        simp [hkne2]


/-- C4: `mergeArtifactsByJob` groups the parsed artifacts by the merge key
(first three dash-separated segments when a name has at least four,
the full name otherwise); the tests of the artifacts sharing a key are
concatenated in encounter order into one result named after the key, and
the output groups appear in first-encounter order of their keys. -/
theorem mergeArtifactsByJob_spec (artifacts : List ParsedTestResultArtifact) :
    mergeArtifactsByJob artifacts =
      (firstKeys (artifacts.map (fun a => mergeKey a.name))).map
        (fun k => ⟨k, groupTests artifacts k⟩) := by
  unfold mergeArtifactsByJob
  rw [mergeGroupsAux_spec artifacts [] (by simp [keysOf])]
  simp [keysOf]

end CITestViewer
namespace CITestViewer

/-! ### `calculateStats` (`src/routes/results/[runId].tsx`, lines 815-854) -/

/-- `TestStats` from `src/routes/results/[runId].tsx`. -/
structure TestStats where
  total : ℕ
  passed : ℕ
  failed : ℕ
  ignored : ℕ
  flaky : ℕ
  totalDuration : ℚ
  deriving DecidableEq

/-- The zero-initialised `stats` object. -/
def TestStats.init : TestStats := ⟨0, 0, 0, 0, 0, 0⟩

/-- Componentwise addition of statistics, used to state additivity of the
walk. -/
def TestStats.add (s t : TestStats) : TestStats :=
  ⟨s.total + t.total, s.passed + t.passed, s.failed + t.failed,
    s.ignored + t.ignored, s.flaky + t.flaky,
    s.totalDuration + t.totalDuration⟩

/-- The increments `processTest` applies for one node (before recursing into
`subTests`): `total++`; exactly one of `failed`/`ignored`/`passed` with that
precedence; `flaky++` when the flaky-count guard holds; the duration added
when truthy. -/
def nodeStats (t : RecordedTestResult) : TestStats :=
  { total := 1
    passed := if t.failed then 0 else if t.ignored then 0 else 1
    failed := if t.failed then 1 else 0
    ignored := if t.failed then 0 else if t.ignored then 1 else 0
    flaky := if flakyTruthy t.flakyCount then 1 else 0
    totalDuration := if durTruthy t.duration then t.duration.getD 0 else 0 }

mutual

/-- `processTest` from `calculateStats`: mutate the running statistics for
this node, then recurse into `subTests` in order. -/
def processTest (s : TestStats) : RecordedTestResult → TestStats
  | .mk _ _ dur failed ignored flaky subs =>
    let s1 : TestStats := { s with total := s.total + 1 }
    let s2 : TestStats :=
      if failed then { s1 with failed := s1.failed + 1 }
      else if ignored then { s1 with ignored := s1.ignored + 1 }
      else { s1 with passed := s1.passed + 1 }
    let s3 : TestStats :=
      if flakyTruthy flaky then { s2 with flaky := s2.flaky + 1 } else s2
    let s4 : TestStats :=
      if durTruthy dur then
        { s3 with totalDuration := s3.totalDuration + dur.getD 0 }
      else s3
    processTests s4 subs

/-- `tests.forEach(processTest)`. -/
def processTests (s : TestStats) : List RecordedTestResult → TestStats
  | [] => s
  | t :: ts => processTests (processTest s t) ts

end

/-- `calculateStats` from `src/routes/results/[runId].tsx`. -/
def calculateStats (results : List JobTestResults) : TestStats :=
  results.foldl (fun s r => processTests s r.tests) TestStats.init

mutual

/-- Preorder flattening of one test node and its descendants. -/
def flattenTest : RecordedTestResult → List RecordedTestResult
  | .mk n p dur failed ignored flaky subs =>
    .mk n p dur failed ignored flaky subs :: flattenTests subs

/-- Preorder flattening of a forest. -/
def flattenTests : List RecordedTestResult → List RecordedTestResult
  | [] => []
  | t :: ts => flattenTest t ++ flattenTests ts

end

/-- Every node of every tree of every job, in visit order. -/
def allNodes (results : List JobTestResults) : List RecordedTestResult :=
  results.flatMap (fun r => flattenTests r.tests)

end CITestViewer
namespace CITestViewer

theorem TestStats.add_init (s : TestStats) : s.add TestStats.init = s := by
  simp [TestStats.add, TestStats.init]

theorem TestStats.init_add (s : TestStats) : TestStats.init.add s = s := by
  simp [TestStats.add, TestStats.init]

theorem TestStats.add_assoc (s t u : TestStats) :
    (s.add t).add u = s.add (t.add u) := by
  simp [TestStats.add, Nat.add_assoc, Rat.add_assoc]

/-- The statistics of a flat list of nodes: the componentwise sum of the
per-node increments. -/
def flatStats (l : List RecordedTestResult) : TestStats :=
  l.foldr (fun t acc => (nodeStats t).add acc) TestStats.init

theorem flatStats_nil : flatStats [] = TestStats.init := rfl

theorem flatStats_cons (t : RecordedTestResult) (l : List RecordedTestResult) :
    flatStats (t :: l) = (nodeStats t).add (flatStats l) := rfl

theorem flatStats_append (l₁ l₂ : List RecordedTestResult) :
    flatStats (l₁ ++ l₂) = (flatStats l₁).add (flatStats l₂) := by
  induction l₁ with
  | nil => simp [flatStats_nil, TestStats.init_add]
  | cons t l ihl =>
    simp only [List.cons_append, flatStats_cons, ihl, TestStats.add_assoc]

mutual

theorem processTest_eq : ∀ (s : TestStats) (t : RecordedTestResult),
    processTest s t = s.add (flatStats (flattenTest t))
  | s, .mk n p dur f i fl subs => by
    have hstep : processTest s (.mk n p dur f i fl subs) =
        processTests
          (s.add (nodeStats (.mk n p dur f i fl subs))) subs := by
      show processTests _ subs = processTests _ subs
      congr 1
      cases f <;> cases i <;>
        cases hfl : flakyTruthy fl <;>
        cases hdur : durTruthy dur <;>
          simp [TestStats.add, nodeStats, RecordedTestResult.failed,
            RecordedTestResult.ignored, RecordedTestResult.flakyCount,
            RecordedTestResult.duration, hfl, hdur]
    rw [hstep, processTests_eq _ subs]
    have hflat : flattenTest (.mk n p dur f i fl subs) =
        RecordedTestResult.mk n p dur f i fl subs :: flattenTests subs := rfl
    rw [hflat, flatStats_cons, ← TestStats.add_assoc]

theorem processTests_eq : ∀ (s : TestStats) (ts : List RecordedTestResult),
    processTests s ts = s.add (flatStats (flattenTests ts))
  | s, [] => by
    simp [processTests, flattenTests, flatStats_nil, TestStats.add_init]
  | s, t :: ts => by
    have h1 : processTests s (t :: ts) = processTests (processTest s t) ts :=
      rfl
    have h2 : flattenTests (t :: ts) = flattenTest t ++ flattenTests ts := rfl
    rw [h1, processTests_eq _ ts, processTest_eq s t, h2, flatStats_append,
      TestStats.add_assoc]

end

theorem calculateStats_foldl (results : List JobTestResults) :
    ∀ s : TestStats,
      results.foldl (fun s r => processTests s r.tests) s =
        s.add (flatStats (allNodes results)) := by
  induction results with
  | nil => intro s; simp [allNodes, flatStats_nil, TestStats.add_init]
  | cons r rs ih =>
    intro s
    have hall : allNodes (r :: rs) =
        flattenTests r.tests ++ allNodes rs := by
      simp [allNodes]
    rw [List.foldl_cons, ih, processTests_eq, hall, flatStats_append,
      TestStats.add_assoc]

theorem flatStats_closed (l : List RecordedTestResult) :
    flatStats l =
      { total := l.length
        passed := (l.filter (fun t => !t.failed && !t.ignored)).length
        failed := (l.filter (fun t => t.failed)).length
        ignored := (l.filter (fun t => !t.failed && t.ignored)).length
        flaky := (l.filter (fun t => flakyTruthy t.flakyCount)).length
        totalDuration := (l.map (fun t => t.duration.getD 0)).sum } := by
  induction l with
  | nil => rfl
  | cons t l ihl =>
    rw [flatStats_cons, ihl]
    obtain ⟨n, p, dur, f, i, fl, subs⟩ := t
    have hdur : (if durTruthy dur then dur.getD 0 else 0) = dur.getD 0 := by
      cases dur with
      | none => rfl
      | some d =>
        by_cases hd : d = 0
        · simp [durTruthy, hd]
        · simp [durTruthy, hd]
    cases f <;> cases i <;> cases hfl : flakyTruthy fl <;>
      simp [TestStats.add, nodeStats, RecordedTestResult.failed,
        RecordedTestResult.ignored, RecordedTestResult.flakyCount,
        RecordedTestResult.duration, hdur, hfl, List.filter_cons,
        Nat.add_comm, Rat.add_comm]

end CITestViewer
namespace CITestViewer

/-- The §8.7 example job: passing(100ms), failing(200ms), ignored(no
duration), flaky(150ms, flakyCount 2). -/
def statsExample : List JobTestResults :=
  [⟨"test-job",
    [.mk "passing-test" "file1.test.ts" (some 100) false false none [],
     .mk "failing-test" "file2.test.ts" (some 200) true false none [],
     .mk "ignored-test" "file3.test.ts" none false true none [],
     .mk "flaky-test" "file4.test.ts" (some 150) false false (some 2) []]⟩]

theorem length_filter_partition (l : List RecordedTestResult) :
    l.length = (l.filter (fun t => t.failed)).length +
      (l.filter (fun t => !t.failed && t.ignored)).length +
      (l.filter (fun t => !t.failed && !t.ignored)).length := by
  induction l with
  | nil => rfl
  | cons t l ihl =>
    cases hf : t.failed <;> cases hi : t.ignored <;>
      simp [List.filter_cons, hf, hi, ihl] <;> omega

/-- C6: the statistics walk visits every node (roots and descendants)
exactly once: `total` is the number of nodes, each node is classified as
exactly one of failed, ignored or passed (failed before ignored before
passed), `flaky` counts exactly the nodes with positive `flakyCount`
independently of the classification, and `totalDuration` is the sum of all
present durations.  On the §8.7 example this gives total 4, passed 2,
failed 1, ignored 1, flaky 1 and totalDuration 450. -/
theorem calculateStats_spec :
    (∀ results : List JobTestResults,
      calculateStats results =
        { total := (allNodes results).length
          passed :=
            ((allNodes results).filter (fun t => !t.failed && !t.ignored)).length
          failed := ((allNodes results).filter (fun t => t.failed)).length
          ignored :=
            ((allNodes results).filter (fun t => !t.failed && t.ignored)).length
          flaky :=
            ((allNodes results).filter (fun t => flakyTruthy t.flakyCount)).length
          totalDuration :=
            ((allNodes results).map (fun t => t.duration.getD 0)).sum } ∧
      (calculateStats results).total = (calculateStats results).failed +
        (calculateStats results).ignored + (calculateStats results).passed) ∧
    calculateStats statsExample =
      { total := 4, passed := 2, failed := 1, ignored := 1, flaky := 1
        totalDuration := 450 } := by
  have hgen : ∀ results : List JobTestResults,
      calculateStats results =
        { total := (allNodes results).length
          passed :=
            ((allNodes results).filter (fun t => !t.failed && !t.ignored)).length
          failed := ((allNodes results).filter (fun t => t.failed)).length
          ignored :=
            ((allNodes results).filter (fun t => !t.failed && t.ignored)).length
          flaky :=
            ((allNodes results).filter (fun t => flakyTruthy t.flakyCount)).length
          totalDuration :=
            ((allNodes results).map (fun t => t.duration.getD 0)).sum } := by
    intro results
    unfold calculateStats
    rw [calculateStats_foldl, TestStats.init_add, flatStats_closed]
  refine ⟨fun results => ⟨hgen results, ?_⟩, ?_⟩
  · rw [hgen results]
    exact length_filter_partition (allNodes results)
  · rw [hgen statsExample]
    norm_num [statsExample, allNodes, flattenTests, flattenTest,
      RecordedTestResult.failed, RecordedTestResult.ignored,
      RecordedTestResult.flakyCount, RecordedTestResult.duration,
      flakyTruthy, List.filter_cons]

end CITestViewer
namespace CITestViewer

/-! ### `AsyncValue` (`src/lib/runs-fetcher.ts`)

The wrapper is modelled as a small state machine over the single-threaded
JavaScript event loop.  A producer is a stateful step function whose
result is the eventual settled outcome of the promise it returns
(`Except.ok` for fulfilment, `Except.error` for rejection); its state
records any internal effects, e.g. an invocation counter.  The private
`#value` slot holds either the one promise created at construction
(represented by its eventual outcome) or, once the fulfilment handler
installed by the constructor has run, the plain resolved value.  An event
trace interleaves `get()` calls with the `settle` microtask; this covers
both sequential and concurrent callers, since in the cooperative
run-to-completion model any number of concurrent `get()` calls is some
interleaving of these events.  A `get` observation is the outcome its
returned promise eventually settles to. -/

/-- A zero-argument async producer with internal state `σ`. -/
structure Producer (σ ε α : Type) where
  run : σ → Except ε α × σ

/-- The `AsyncValue` object: the producer (with its current internal
state) and the `#value` slot — `Sum.inl` while the slot still holds the
constructor-created promise, `Sum.inr` once it was replaced by the
resolved value. -/
structure AsyncValue (σ ε α : Type) where
  producer : Producer σ ε α
  producerState : σ
  valueSlot : Except ε α ⊕ α

/-- `new AsyncValue(value)`: invokes the producer immediately, exactly
once, and stores the returned promise in `#value`. -/
def AsyncValue.new {σ ε α : Type} (p : Producer σ ε α) (s : σ) :
    AsyncValue σ ε α :=
  let r := p.run s
  ⟨p, r.2, Sum.inl r.1⟩

/-- The `.then` handler installed by the constructor: when the promise
fulfils, `#value` is overwritten with the plain value; a rejection never
fires the handler, so the slot keeps the rejected promise. -/
def AsyncValue.settle {σ ε α : Type} (av : AsyncValue σ ε α) :
    AsyncValue σ ε α :=
  match av.valueSlot with
  | Sum.inl (Except.ok v) => { av with valueSlot := Sum.inr v }
  | _ => av

/-- `get()`: awaits `#value` when it is still a promise, otherwise returns
the stored value; it never invokes the producer. -/
def AsyncValue.get {σ ε α : Type} (av : AsyncValue σ ε α) : Except ε α :=
  match av.valueSlot with
  | Sum.inl out => out
  | Sum.inr v => Except.ok v

/-- One event-loop event relevant to the wrapper. -/
inductive AVEvent : Type where
  | settle
  | get
  deriving DecidableEq

/-- Run an event trace, collecting the observation of every `get`. -/
def runTrace {σ ε α : Type} (av : AsyncValue σ ε α) :
    List AVEvent → AsyncValue σ ε α × List (Except ε α)
  | [] => (av, [])
  | AVEvent.settle :: es => runTrace av.settle es
  | AVEvent.get :: es =>
    let r := runTrace av es
    (r.1, av.get :: r.2)

theorem settle_inl_ok {σ ε α : Type} (pr : Producer σ ε α) (ps : σ) (v : α) :
    AsyncValue.settle ⟨pr, ps, Sum.inl (Except.ok v)⟩ = ⟨pr, ps, Sum.inr v⟩ :=
  rfl

theorem settle_inl_error {σ ε α : Type} (pr : Producer σ ε α) (ps : σ)
    (e : ε) :
    AsyncValue.settle ⟨pr, ps, Sum.inl (Except.error e)⟩ =
      ⟨pr, ps, Sum.inl (Except.error e)⟩ :=
  rfl

theorem settle_inr {σ ε α : Type} (pr : Producer σ ε α) (ps : σ) (v : α) :
    AsyncValue.settle ⟨pr, ps, Sum.inr v⟩ = ⟨pr, ps, Sum.inr v⟩ :=
  rfl

theorem get_inl {σ ε α : Type} (pr : Producer σ ε α) (ps : σ)
    (out : Except ε α) :
    AsyncValue.get ⟨pr, ps, Sum.inl out⟩ = out :=
  rfl

theorem get_inr {σ ε α : Type} (pr : Producer σ ε α) (ps : σ) (v : α) :
    AsyncValue.get ⟨pr, ps, Sum.inr v⟩ = Except.ok v :=
  rfl

theorem runTrace_outcome {σ ε α : Type} (out : Except ε α) :
    ∀ (events : List AVEvent) (av : AsyncValue σ ε α),
      (av.valueSlot = Sum.inl out ∨
        ∃ v, out = Except.ok v ∧ av.valueSlot = Sum.inr v) →
      (runTrace av events).2 =
          List.replicate (events.count AVEvent.get) out ∧
        (runTrace av events).1.producer = av.producer ∧
        (runTrace av events).1.producerState = av.producerState := by
  intro events
  induction events with
  | nil => intro av hslot; simp [runTrace]
  | cons e es ih =>
    intro av hslot
    obtain ⟨pr, ps, slot⟩ := av
    cases e with
    | settle =>
      have hone : AsyncValue.settle ⟨pr, ps, slot⟩ = ⟨pr, ps, slot⟩ ∨
          ∃ v, out = Except.ok v ∧
            AsyncValue.settle ⟨pr, ps, slot⟩ = ⟨pr, ps, Sum.inr v⟩ := by
        rcases hslot with h | ⟨v, hv, h⟩
        · simp only at h
          subst h
          cases out with
          | ok v => exact Or.inr ⟨v, rfl, settle_inl_ok pr ps v⟩
          | error e => exact Or.inl (settle_inl_error pr ps e)
        · simp only at h
          subst h
          exact Or.inl (settle_inr pr ps v)
      have hrun : runTrace (⟨pr, ps, slot⟩ : AsyncValue σ ε α)
          (AVEvent.settle :: es) =
          runTrace (AsyncValue.settle ⟨pr, ps, slot⟩) es := rfl
      rcases hone with hs | ⟨v, hv, hs⟩
      · have := ih ⟨pr, ps, slot⟩ hslot
        rw [hrun, hs]
        refine ⟨?_, this.2.1, this.2.2⟩
        simpa [List.count_cons] using this.1
      · have := ih ⟨pr, ps, Sum.inr v⟩ (Or.inr ⟨v, hv, rfl⟩)
        rw [hrun, hs]
        refine ⟨?_, this.2.1, this.2.2⟩
        simpa [List.count_cons] using this.1
    | get =>
      have hget : AsyncValue.get (⟨pr, ps, slot⟩ : AsyncValue σ ε α) = out := by
        rcases hslot with h | ⟨v, hv, h⟩
        · simp only at h
          subst h
          simp [AsyncValue.get]
        · simp only at h
          subst h
          simp [AsyncValue.get, hv]
      have := ih ⟨pr, ps, slot⟩ hslot
      have hrun : runTrace (⟨pr, ps, slot⟩ : AsyncValue σ ε α)
          (AVEvent.get :: es) =
          ((runTrace (⟨pr, ps, slot⟩ : AsyncValue σ ε α) es).1,
            AsyncValue.get ⟨pr, ps, slot⟩ ::
              (runTrace (⟨pr, ps, slot⟩ : AsyncValue σ ε α) es).2) := rfl
      rw [hrun]
      refine ⟨?_, this.2.1, this.2.2⟩
      simp only [hget, this.1, List.count_cons]
      simp [List.replicate_succ]

/-- C1: for a producer whose single invocation fulfils with value `v`, the
`AsyncValue` invokes the producer exactly once in total — at construction;
over any interleaving of `get()` calls and the settle microtask (covering
sequential as well as concurrent callers), the producer state stays the
state after that one invocation, and every `get()` resolves to `v`. -/
theorem asyncValue_single_flight {σ ε α : Type} (p : Producer σ ε α)
    (s s2 : σ) (v : α) (h : p.run s = (Except.ok v, s2)) :
    ∀ events : List AVEvent,
      (runTrace (AsyncValue.new p s) events).2 =
          List.replicate (events.count AVEvent.get) (Except.ok v) ∧
        (runTrace (AsyncValue.new p s) events).1.producer = p ∧
        (runTrace (AsyncValue.new p s) events).1.producerState = s2 := by
  intro events
  have hnew : AsyncValue.new p s =
      ⟨p, s2, Sum.inl (Except.ok v)⟩ := by
    unfold AsyncValue.new
    rw [h]
  rw [hnew]
  exact runTrace_outcome (Except.ok v) events _ (Or.inl rfl)

/-- C2: for a producer whose single invocation rejects with error `e`, the
slot keeps the rejected promise forever: every later `get()` — under any
event interleaving — rejects with that same error `e`, and the producer is
never re-run (its state stays the state after the one failed invocation). -/
theorem asyncValue_rejection_permanence {σ ε α : Type} (p : Producer σ ε α)
    (s s2 : σ) (e : ε) (h : p.run s = (Except.error e, s2)) :
    ∀ events : List AVEvent,
      (runTrace (AsyncValue.new p s) events).2 =
          List.replicate (events.count AVEvent.get) (Except.error e) ∧
        (runTrace (AsyncValue.new p s) events).1.producer = p ∧
        (runTrace (AsyncValue.new p s) events).1.producerState = s2 := by
  intro events
  have hnew : AsyncValue.new p s =
      ⟨p, s2, Sum.inl (Except.error e)⟩ := by
    unfold AsyncValue.new
    rw [h]
  rw [hnew]
  exact runTrace_outcome (Except.error e) events _ (Or.inl rfl)

/-- A producer that counts its own invocations and fulfils with 42. -/
def countingProducer : Producer ℕ String ℕ :=
  ⟨fun c => (Except.ok 42, c + 1)⟩

/-- A producer that counts its own invocations and always rejects; the
count lets the model distinguish a retry from the recorded first failure. -/
def countingRejectingProducer : Producer ℕ String ℕ :=
  ⟨fun c => (Except.error "Test error", c + 1)⟩

/-- Witness for C1: three sequential `get()` calls and three concurrent
ones (gets before the settle microtask) both observe 42 three times with
the invocation counter at 1. -/
theorem asyncValue_single_flight_witness :
    countingProducer.run 0 = (Except.ok 42, 1) ∧
    (runTrace (AsyncValue.new countingProducer 0)
        [AVEvent.settle, AVEvent.get, AVEvent.get, AVEvent.get]).2 =
      [Except.ok 42, Except.ok 42, Except.ok 42] ∧
    (runTrace (AsyncValue.new countingProducer 0)
        [AVEvent.get, AVEvent.get, AVEvent.get, AVEvent.settle]).2 =
      [Except.ok 42, Except.ok 42, Except.ok 42] ∧
    (runTrace (AsyncValue.new countingProducer 0)
        [AVEvent.get, AVEvent.get, AVEvent.get, AVEvent.settle]).1.producerState
      = 1 := by
  refine ⟨rfl, ?_, ?_, ?_⟩
  · have := asyncValue_single_flight countingProducer 0 1 42 rfl
      [AVEvent.settle, AVEvent.get, AVEvent.get, AVEvent.get]
    simpa using this.1
  · have := asyncValue_single_flight countingProducer 0 1 42 rfl
      [AVEvent.get, AVEvent.get, AVEvent.get, AVEvent.settle]
    simpa using this.1
  · have := asyncValue_single_flight countingProducer 0 1 42 rfl
      [AVEvent.get, AVEvent.get, AVEvent.get, AVEvent.settle]
    exact this.2.2

/-- Witness for C2: two successive `get()` calls after a rejection both
reject with the original error and the producer is not re-run. -/
theorem asyncValue_rejection_permanence_witness :
    countingRejectingProducer.run 0 = (Except.error "Test error", 1) ∧
    (runTrace (AsyncValue.new countingRejectingProducer 0)
        [AVEvent.get, AVEvent.settle, AVEvent.get]).2 =
      [Except.error "Test error", Except.error "Test error"] ∧
    (runTrace (AsyncValue.new countingRejectingProducer 0)
        [AVEvent.get, AVEvent.settle, AVEvent.get]).1.producerState = 1 := by
  refine ⟨rfl, ?_, ?_⟩
  · have := asyncValue_rejection_permanence countingRejectingProducer 0 1
      "Test error" rfl [AVEvent.get, AVEvent.settle, AVEvent.get]
    simpa using this.1
  · have := asyncValue_rejection_permanence countingRejectingProducer 0 1
      "Test error" rfl [AVEvent.get, AVEvent.settle, AVEvent.get]
    exact this.2.2

end CITestViewer
namespace CITestViewer

/-! ### Run page controller (`src/routes/results/[runId].tsx`, lines 264-295) -/

/-- `WorkflowRun` from `src/lib/github-api-client.ts`. -/
structure WorkflowRun where
  id : ℕ
  name : String
  displayTitle : String
  status : String
  conclusion : Option String
  createdAt : String
  updatedAt : String
  runNumber : ℕ
  event : String
  headBranch : String
  headSha : String
  deriving DecidableEq

/-- Modelled from the spec: `WorkflowStep` (§3) belongs to the API-client
variant that is absent from the sources (only its tests and callers
remain) — {name, status, conclusion, number, started_at, completed_at},
with the timestamps possibly absent. -/
structure WorkflowStep where
  name : String
  status : String
  conclusion : Option String
  number : ℕ
  startedAt : Option String
  completedAt : Option String
  deriving DecidableEq

/-- Modelled from the spec: `WorkflowJob` (§3), from the same absent
client variant — {id, run_id, name, status, conclusion, started_at,
completed_at, steps?}; the optional `steps` array is a plain list. -/
structure WorkflowJob where
  id : ℕ
  runId : ℕ
  name : String
  status : String
  conclusion : Option String
  startedAt : Option String
  completedAt : Option String
  steps : List WorkflowStep
  deriving DecidableEq

/-- The upstream operations the run page controller can invoke, recorded
in invocation order. -/
inductive UpstreamCall : Type where
  | getRun (runId : ℕ)
  | download (runId : ℕ)
  | listJobs (runId : ℕ)
  deriving DecidableEq

/-- The dependencies of `RunPageController`: `getWorkflowRun` resolves to
`none` exactly when the platform answers 404; any operation may throw
(`Except.error`). -/
structure RunPagePlatform where
  getWorkflowRun : ℕ → Except String (Option WorkflowRun)
  downloadForRunId : ℕ → Except String (List ParsedTestResultArtifact)
  listJobs : ℕ → Except String (List WorkflowJob)

/-- What `getForRun` can produce: an explicit HTTP `Response` (status and
body), the `{ data: ... }` bundle, or an error propagated to the caller. -/
inductive RunPageResult : Type where
  | httpResponse (status : ℕ) (body : Option String)
  | bundle (runId : ℕ) (run : WorkflowRun)
      (results : List ParsedTestResultArtifact) (jobs : List WorkflowJob)
  | thrown (error : String)

/-- `parseInt(ctx.params.runId, 10)` for a route path segment: the longest
leading digit run, `NaN` (`none`) when there is none.  (The sign and
whitespace handling of `parseInt` is not exercised by route ids and is
not modelled.) -/
def parseRunId (s : String) : Option ℕ :=
  let digits := s.data.takeWhile Char.isDigit
  if digits.isEmpty then none
  else some (digits.foldl (fun n c => n * 10 + (c.toNat - 48)) 0)

/-- `RunPageController.getForRun` from `src/routes/results/[runId].tsx`:
400 for `NaN`, then `getWorkflowRun`; 404 with empty body when the run is
absent; otherwise `downloadForRunId` and `listJobs` via `Promise.all`
(both requests are issued; a rejection of either rejects the whole call).
The second component records the upstream calls made. -/
def getForRun (p : RunPagePlatform) (runId : Option ℕ) :
    RunPageResult × List UpstreamCall :=
  match runId with
  | none => (RunPageResult.httpResponse 400 (some "Invalid run ID"), [])
  | some rid =>
    match p.getWorkflowRun rid with
    | Except.error e => (RunPageResult.thrown e, [UpstreamCall.getRun rid])
    | Except.ok none =>
      (RunPageResult.httpResponse 404 none, [UpstreamCall.getRun rid])
    | Except.ok (some run) =>
      match p.downloadForRunId rid, p.listJobs rid with
      | Except.ok results, Except.ok jobs =>
        (RunPageResult.bundle rid run results jobs,
          [UpstreamCall.getRun rid, UpstreamCall.download rid,
            UpstreamCall.listJobs rid])
      | Except.error e, _ =>
        (RunPageResult.thrown e,
          [UpstreamCall.getRun rid, UpstreamCall.download rid,
            UpstreamCall.listJobs rid])
      | _, Except.error e =>
        (RunPageResult.thrown e,
          [UpstreamCall.getRun rid, UpstreamCall.download rid,
            UpstreamCall.listJobs rid])

/-- C5: `getForRun` answers 400 with body `Invalid run ID` for a
non-numeric run id (such as `abc`) without making any upstream call,
answers 404 with an empty body when the platform reports the run absent,
and for a valid existing run returns the bundle of runId, run, results
and jobs. -/
theorem getForRun_spec (p : RunPagePlatform) :
    parseRunId "abc" = none ∧
    getForRun p none =
      (RunPageResult.httpResponse 400 (some "Invalid run ID"), []) ∧
    (∀ rid, p.getWorkflowRun rid = Except.ok none →
      getForRun p (some rid) =
        (RunPageResult.httpResponse 404 none, [UpstreamCall.getRun rid])) ∧
    (∀ rid run results jobs,
      p.getWorkflowRun rid = Except.ok (some run) →
      p.downloadForRunId rid = Except.ok results →
      p.listJobs rid = Except.ok jobs →
      getForRun p (some rid) =
        (RunPageResult.bundle rid run results jobs,
          [UpstreamCall.getRun rid, UpstreamCall.download rid,
            UpstreamCall.listJobs rid])) := by
  refine ⟨rfl, rfl, ?_, ?_⟩
  · intro rid h
    simp only [getForRun]
    rw [h]
  · intro rid run results jobs h1 h2 h3
    simp only [getForRun]
    rw [h1, h2, h3]

/-- The run with id 7, the only one the witness platform knows. -/
def runPageWitnessRun : WorkflowRun :=
  ⟨7, "CI", "Test run", "completed", some "success", "2025-01-01T00:00:00Z",
    "2025-01-01T00:10:00Z", 1, "push", "main", "abc123"⟩

/-- A platform that has exactly run 7 and empty results and jobs. -/
def runPageWitnessPlatform : RunPagePlatform :=
  ⟨fun rid => Except.ok (if rid = 7 then some runPageWitnessRun else none),
    fun _ => Except.ok [], fun _ => Except.ok []⟩

/-- Witness for C5 at the concrete inputs `abc`, 999 (absent) and 7
(present). -/
theorem getForRun_spec_witness :
    getForRun runPageWitnessPlatform (parseRunId "abc") =
      (RunPageResult.httpResponse 400 (some "Invalid run ID"), []) ∧
    getForRun runPageWitnessPlatform (some 999) =
      (RunPageResult.httpResponse 404 none, [UpstreamCall.getRun 999]) ∧
    getForRun runPageWitnessPlatform (some 7) =
      (RunPageResult.bundle 7 runPageWitnessRun [] [],
        [UpstreamCall.getRun 7, UpstreamCall.download 7,
          UpstreamCall.listJobs 7]) := by
  have h := getForRun_spec runPageWitnessPlatform
  refine ⟨?_, ?_, ?_⟩
  · rw [h.1]
    exact h.2.1
  · exact h.2.2.1 999 (by simp [runPageWitnessPlatform])
  · exact h.2.2.2 7 runPageWitnessRun [] []
      (by simp [runPageWitnessPlatform]) rfl rfl

end CITestViewer
namespace CITestViewer

/-! ### Insights page controller (`src/unnamed/part_007`)

The model covers the run acquisition, the 20-run window, the per-run
try/catch, and the flaky/failed/flaky-jobs aggregation walk.  The job and
step performance aggregation and the calendar date range need a model of
`Date` parsing and the process clock; they are not referenced by any
claim and are not modelled.  The final `.sort` calls and the
map-to-array conversions only reorder and reshape the report for display
and are likewise not modelled: the claims concern which records exist and
under which keys. -/

/-- `s.toLowerCase()` (ASCII; workflow names contain no other letters). -/
def lowerAscii (s : String) : String :=
  ⟨s.data.map Char.toLower⟩

/-- `created_at.split("T")[0]`: the characters before the first `T` (the
UTC calendar day of an ISO timestamp). -/
def dayOf (s : String) : String :=
  ⟨s.data.takeWhile (fun c => c ≠ 'T')⟩

/-- The filter of step 2: `status === "completed"` and name
case-insensitively `ci`. -/
def qualifiesForInsights (run : WorkflowRun) : Bool :=
  run.status = "completed" && lowerAscii run.name = "ci"

/-- The data fetched for one retained run. -/
structure RunData where
  runId : ℕ
  run : WorkflowRun
  results : List ParsedTestResultArtifact
  jobs : List WorkflowJob

/-- `path + "::" + name`, the composite aggregation key. -/
def compositeKey (path name : String) : String :=
  path ++ "::" ++ name

/-- One record of `flakyTestsMap`. -/
structure FlakyRec where
  name : String
  path : String
  totalFlakyCounts : ℕ
  occurrences : ℕ
  avgFlakyCount : ℚ
  runIds : List ℕ
  jobCounts : List (String × ℕ)
  dailyCounts : List (String × ℕ)
  deriving DecidableEq

/-- One record of `failedTestsMap`. -/
structure FailedRec where
  name : String
  path : String
  failureCount : ℕ
  runIds : List ℕ
  dailyCounts : List (String × ℕ)
  deriving DecidableEq

/-- The three maps the test walk accumulates. -/
structure InsightsAgg where
  flakyTestsMap : List (String × FlakyRec)
  failedTestsMap : List (String × FailedRec)
  jobFlakyCountsMap : List (String × ℕ)
  deriving DecidableEq

/-- The update of an existing flaky record for one more flaky sighting. -/
def updateFlakyRec (runId : ℕ) (jobName runDate : String) (fc : ℕ)
    (r : FlakyRec) : FlakyRec :=
  { r with
    totalFlakyCounts := r.totalFlakyCounts + fc
    occurrences := r.occurrences + 1
    runIds := if runId ∈ r.runIds then r.runIds else r.runIds ++ [runId]
    avgFlakyCount := ((r.totalFlakyCounts + fc : ℕ) : ℚ) /
      ((r.occurrences + 1 : ℕ) : ℚ)
    jobCounts := upsert jobName (fun c => c + fc) fc r.jobCounts
    dailyCounts := upsert runDate (fun c => c + fc) fc r.dailyCounts }

/-- The freshly created flaky record. -/
def initFlakyRec (name path : String) (runId : ℕ) (jobName runDate : String)
    (fc : ℕ) : FlakyRec :=
  ⟨name, path, fc, 1, (fc : ℚ), [runId], [(jobName, fc)], [(runDate, fc)]⟩

/-- The update of an existing failed record for one more failure. -/
def updateFailedRec (runId : ℕ) (runDate : String) (r : FailedRec) :
    FailedRec :=
  { r with
    failureCount := r.failureCount + 1
    runIds := if runId ∈ r.runIds then r.runIds else r.runIds ++ [runId]
    dailyCounts := upsert runDate (fun c => c + 1) 1 r.dailyCounts }

/-- The freshly created failed record. -/
def initFailedRec (name path : String) (runId : ℕ) (runDate : String) :
    FailedRec :=
  ⟨name, path, 1, [runId], [(runDate, 1)]⟩

mutual

/-- `processTest(test, runId, jobName)` from the insights controller:
a flaky node updates `flakyTestsMap` under `path + "::" + name` and
`jobFlakyCountsMap` under the job name; a failed node updates
`failedTestsMap` under the same composite key; then the walk recurses
into `subTests`. -/
def insProcessTest (runId : ℕ) (jobName runDate : String)
    (st : InsightsAgg) : RecordedTestResult → InsightsAgg
  | .mk n p _ f _ fl subs =>
    let st1 : InsightsAgg :=
      if flakyTruthy fl then
        { st with
          flakyTestsMap :=
            upsert (compositeKey p n)
              (updateFlakyRec runId jobName runDate (fl.getD 0))
              (initFlakyRec n p runId jobName runDate (fl.getD 0))
              st.flakyTestsMap
          jobFlakyCountsMap :=
            upsert jobName (fun c => c + fl.getD 0) (fl.getD 0)
              st.jobFlakyCountsMap }
      else st
    let st2 : InsightsAgg :=
      if f then
        { st1 with
          failedTestsMap :=
            upsert (compositeKey p n) (updateFailedRec runId runDate)
              (initFailedRec n p runId runDate) st1.failedTestsMap }
      else st1
    insProcessTests runId jobName runDate st2 subs

/-- `subTests.forEach(...)`. -/
def insProcessTests (runId : ℕ) (jobName runDate : String)
    (st : InsightsAgg) : List RecordedTestResult → InsightsAgg
  | [] => st
  | t :: ts =>
    insProcessTests runId jobName runDate
      (insProcessTest runId jobName runDate st t) ts

end

/-- The walk over one retained run: every job result's trees, with the
run id, the job name, and the run's creation day as context. -/
def processRunData (st : InsightsAgg) (rd : RunData) : InsightsAgg :=
  rd.results.foldl
    (fun st jr =>
      insProcessTests rd.runId jr.name (dayOf rd.run.createdAt) st jr.tests)
    st

/-- The aggregation over all successfully fetched runs, in list order. -/
def insightsAggregate (runData : List RunData) : InsightsAgg :=
  runData.foldl processRunData ⟨[], [], []⟩

/-- The dependencies of `InsightsPageController`: the run listing takes
`perPage`, `page` and the optional branch restriction. -/
structure InsightsPlatform where
  listWorkflowRuns :
    ℕ → ℕ → Option String → Except String (List WorkflowRun × ℕ)
  downloadForRunId : ℕ → Except String (List ParsedTestResultArtifact)
  listJobs : ℕ → Except String (List WorkflowJob)

/-- The view model fields of the insights report that the claims
reference. -/
structure InsightsView where
  agg : InsightsAgg
  totalRunsAnalyzed : ℕ
  oldestRun : Option WorkflowRun
  newestRun : Option WorkflowRun
  loggedFailures : List (ℕ × String)

/-- The body of `InsightsPageController.get` after the two page fetches:
filter to completed `ci` runs, keep the first 20, fetch each retained
run's results and jobs together (the `Promise.all` in the `try`), turn a
failure of either fetch into a logged failure that excludes the run, and
aggregate the successes.  `totalRunsAnalyzed` is the number of retained
runs, `newestRun`/`oldestRun` the first/last retained run. -/
def insightsBody (p : InsightsPlatform) (allRuns : List WorkflowRun) :
    InsightsView :=
  let mainBranchRuns := (allRuns.filter qualifiesForInsights).take 20
  let fetched := mainBranchRuns.map (fun run =>
    match p.downloadForRunId run.id, p.listJobs run.id with
    | Except.ok results, Except.ok jobs =>
      Sum.inl (⟨run.id, run, results, jobs⟩ : RunData)
    | Except.error e, _ => Sum.inr (run.id, e)
    | _, Except.error e => Sum.inr (run.id, e))
  let allResults := fetched.filterMap (fun r =>
    match r with | Sum.inl rd => some rd | Sum.inr _ => none)
  let failures := fetched.filterMap (fun r =>
    match r with | Sum.inl _ => none | Sum.inr f => some f)
  ⟨insightsAggregate allResults, mainBranchRuns.length,
    mainBranchRuns.getLast?, mainBranchRuns.head?, failures⟩

/-- `InsightsPageController.get` from `src/unnamed/part_007`: two
100-run pages restricted to the `main` branch at the query level, then
the body above.  A failure of either page fetch rejects the whole call. -/
def insightsGet (p : InsightsPlatform) : Except String InsightsView := do
  let page1 ← p.listWorkflowRuns 100 1 (some "main")
  let page2 ← p.listWorkflowRuns 100 2 (some "main")
  pure (insightsBody p (page1.1 ++ page2.1))

end CITestViewer
namespace CITestViewer

/-- The combined per-run fetch succeeds iff both fetches do. -/
def runFetchOk (p : InsightsPlatform) (run : WorkflowRun) : Bool :=
  (p.downloadForRunId run.id).isOk && (p.listJobs run.id).isOk

theorem fetched_successes (p : InsightsPlatform) (l : List WorkflowRun) :
    (l.map (fun run =>
      match p.downloadForRunId run.id, p.listJobs run.id with
      | Except.ok results, Except.ok jobs =>
        Sum.inl (⟨run.id, run, results, jobs⟩ : RunData)
      | Except.error e, _ => Sum.inr (run.id, e)
      | _, Except.error e => Sum.inr (run.id, e))).filterMap (fun r =>
        match r with | Sum.inl rd => some rd | Sum.inr _ => none) =
      (l.filter (runFetchOk p)).map (fun run =>
        (⟨run.id, run, (p.downloadForRunId run.id).toOption.getD [],
          (p.listJobs run.id).toOption.getD []⟩ : RunData)) := by
  induction l with
  | nil => rfl
  | cons run l ihl =>
    cases hd : p.downloadForRunId run.id with
    | error e =>
      have hpred : runFetchOk p run = false := by
        simp [runFetchOk, hd, Except.isOk, Except.toBool]
      cases hj : p.listJobs run.id <;>
        · simp only [List.map_cons, List.filterMap_cons, List.filter_cons,
            hpred, Bool.false_eq_true, if_false, ihl]
          rw [hd, hj]
    | ok results =>
      cases hj : p.listJobs run.id with
      | error e =>
        have hpred : runFetchOk p run = false := by
          simp [runFetchOk, hd, hj, Except.isOk, Except.toBool]
        simp only [List.map_cons, List.filterMap_cons, List.filter_cons,
          hpred, Bool.false_eq_true, if_false, ihl]
        rw [hd, hj]
      | ok jobs =>
        have hpred : runFetchOk p run = true := by
          simp [runFetchOk, hd, hj, Except.isOk, Except.toBool]
        simp only [List.map_cons, List.filterMap_cons, List.filter_cons,
          hpred, if_true, ihl]
        rw [hd, hj]; simp [ihl, Except.toOption]

theorem fetched_failures (p : InsightsPlatform) (l : List WorkflowRun) :
    ((l.map (fun run =>
      match p.downloadForRunId run.id, p.listJobs run.id with
      | Except.ok results, Except.ok jobs =>
        Sum.inl (⟨run.id, run, results, jobs⟩ : RunData)
      | Except.error e, _ => Sum.inr (run.id, e)
      | _, Except.error e => Sum.inr (run.id, e))).filterMap (fun r =>
        match r with | Sum.inl _ => none | Sum.inr f => some f)).map
          Prod.fst =
      (l.filter (fun run => !runFetchOk p run)).map (fun run => run.id) := by
  induction l with
  | nil => rfl
  | cons run l ihl =>
    cases hd : p.downloadForRunId run.id with
    | error e =>
      have hpred : runFetchOk p run = false := by
        simp [runFetchOk, hd, Except.isOk, Except.toBool]
      cases hj : p.listJobs run.id <;>
        · simp only [List.map_cons, List.filterMap_cons, List.filter_cons,
            hpred, Bool.false_eq_true, if_false, ihl]
          rw [hd, hj]; simpa using ihl
    | ok results =>
      cases hj : p.listJobs run.id with
      | error e =>
        have hpred : runFetchOk p run = false := by
          simp [runFetchOk, hd, hj, Except.isOk, Except.toBool]
        simp only [List.map_cons, List.filterMap_cons, List.filter_cons,
          hpred, Bool.false_eq_true, if_false, ihl]
        rw [hd, hj]; simpa using ihl
      | ok jobs =>
        have hpred : runFetchOk p run = true := by
          simp [runFetchOk, hd, hj, Except.isOk, Except.toBool]
        simp only [List.map_cons, List.filterMap_cons, List.filter_cons,
          hpred, Bool.not_true, Bool.false_eq_true, if_false]
        rw [hd, hj]; simpa using ihl

/-- C7: the insights controller analyzes at most the first 20 qualifying
completed main-branch `ci` runs (`totalRunsAnalyzed` is the minimum of 20
and the qualifying count, so 20 when 30 runs qualify); each retained run
whose results-or-jobs fetch fails is logged under its run id and excluded
from the aggregation, which is computed exactly over the runs whose
fetches succeed, so one failing run never aborts the others. -/
theorem insightsGet_spec (p : InsightsPlatform)
    (runs1 runs2 : List WorkflowRun) (c1 c2 : ℕ)
    (h1 : p.listWorkflowRuns 100 1 (some "main") = Except.ok (runs1, c1))
    (h2 : p.listWorkflowRuns 100 2 (some "main") = Except.ok (runs2, c2)) :
    insightsGet p = Except.ok (insightsBody p (runs1 ++ runs2)) ∧
    (insightsBody p (runs1 ++ runs2)).totalRunsAnalyzed =
      min 20 ((runs1 ++ runs2).filter qualifiesForInsights).length ∧
    (insightsBody p (runs1 ++ runs2)).agg =
      insightsAggregate
        (((((runs1 ++ runs2).filter qualifiesForInsights).take 20).filter
            (runFetchOk p)).map (fun run =>
          ⟨run.id, run, (p.downloadForRunId run.id).toOption.getD [],
            (p.listJobs run.id).toOption.getD []⟩)) ∧
    (insightsBody p (runs1 ++ runs2)).loggedFailures.map Prod.fst =
      ((((runs1 ++ runs2).filter qualifiesForInsights).take 20).filter
          (fun run => !runFetchOk p run)).map (fun run => run.id) := by
  refine ⟨?_, ?_, ?_, ?_⟩
  · unfold insightsGet
    rw [h1]
    show (Except.ok (runs1, c1)).bind _ =
      Except.ok (insightsBody p (runs1 ++ runs2))
    rw [Except.bind, h2]
    rfl
  · simp [insightsBody, List.length_take]
  · simp only [insightsBody]
    rw [fetched_successes]
  · simp only [insightsBody]
    rw [fetched_failures]

end CITestViewer
namespace CITestViewer

/-- The i-th completed main-branch `CI` run of the witness platform. -/
def c7Run (i : ℕ) : WorkflowRun :=
  ⟨i, "CI", "Run", "completed", some "success", "2025-01-01T00:00:00Z",
    "2025-01-01T01:00:00Z", i, "push", "main", "sha"⟩

/-- Thirty qualifying runs, ids 1 to 30, newest first. -/
def c7Runs : List WorkflowRun := (List.range 30).map (fun i => c7Run (i + 1))

/-- A platform with the thirty runs on page 1 of the main-branch listing
and a failing results download for run 5. -/
def c7Platform : InsightsPlatform :=
  ⟨fun perPage page branch =>
      if perPage = 100 && page = 1 && branch = some "main" then
        Except.ok (c7Runs, 30)
      else if perPage = 100 && page = 2 && branch = some "main" then
        Except.ok ([], 0)
      else Except.error "unexpected query",
    fun rid =>
      if rid = 5 then Except.error "download failed" else Except.ok [],
    fun _ => Except.ok []⟩

/-- Witness for C7: with 30 qualifying runs of which run 5 fails its
fetch, the controller returns normally, analyzes 20 runs, and logs
exactly run 5 as excluded. -/
theorem insightsGet_spec_witness :
    insightsGet c7Platform =
      Except.ok (insightsBody c7Platform (c7Runs ++ [])) ∧
    (insightsBody c7Platform (c7Runs ++ [])).totalRunsAnalyzed = 20 ∧
    (insightsBody c7Platform (c7Runs ++ [])).loggedFailures.map Prod.fst =
      [5] := by
  have h := insightsGet_spec c7Platform c7Runs [] 30 0 rfl rfl
  refine ⟨h.1, ?_, ?_⟩
  · rw [h.2.1]
    rfl
  · rw [h.2.2.2]
    rfl

end CITestViewer
namespace CITestViewer

/-- Keys of a left fold of conditional upserts over a stream: the keys of
the initial map, followed by the first-encounter deduplication of the
keys of the qualifying elements that are not already present. -/
theorem foldl_condUpsert_keys {β τ : Type} (pred : τ → Bool)
    (key : τ → String) (f : τ → β → β) (init : τ → β) :
    ∀ (l : List τ) (m : List (String × β)),
      keysOf (l.foldl (fun m t =>
        if pred t then upsert (key t) (f t) (init t) m else m) m) =
        keysOf m ++
          ((firstKeys ((l.filter pred).map key)).filter
            (fun k => k ∉ keysOf m)) := by
  intro l
  induction l with
  | nil => intro m; simp [firstKeys]
  | cons t l ihl =>
    intro m
    rw [List.foldl_cons]
    by_cases hp : pred t
    · rw [if_pos hp, ihl, keysOf_upsert]
      rw [List.filter_cons_of_pos (by simp [hp]), List.map_cons,
        firstKeys_cons]
      by_cases hk : key t ∈ keysOf m
      · rw [if_pos hk,
          List.filter_cons_of_neg (by simp [hk]),
          filter_ne_then_not_mem hk]
      · rw [if_neg hk, List.filter_cons_of_pos (by simp [hk]),
          filter_not_mem_append]
        simp [List.append_assoc]
    · rw [if_neg hp, ihl, List.filter_cons_of_neg (by simp [hp])]

/-- A test node together with the walk context the insights aggregation
uses for it. -/
structure AnnotatedNode where
  runId : ℕ
  jobName : String
  runDate : String
  test : RecordedTestResult

/-- The `flakyTestsMap` effect of visiting one annotated node. -/
def flakyStep (m : List (String × FlakyRec)) (a : AnnotatedNode) :
    List (String × FlakyRec) :=
  if flakyTruthy a.test.flakyCount then
    upsert (compositeKey a.test.path a.test.name)
      (updateFlakyRec a.runId a.jobName a.runDate (a.test.flakyCount.getD 0))
      (initFlakyRec a.test.name a.test.path a.runId a.jobName a.runDate
        (a.test.flakyCount.getD 0)) m
  else m

/-- The `failedTestsMap` effect of visiting one annotated node. -/
def failedStep (m : List (String × FailedRec)) (a : AnnotatedNode) :
    List (String × FailedRec) :=
  if a.test.failed then
    upsert (compositeKey a.test.path a.test.name)
      (updateFailedRec a.runId a.runDate)
      (initFailedRec a.test.name a.test.path a.runId a.runDate) m
  else m

/-- Annotate the preorder flattening of a forest with a fixed context. -/
def annotate (runId : ℕ) (jobName runDate : String)
    (ts : List RecordedTestResult) : List AnnotatedNode :=
  (flattenTests ts).map (fun t => ⟨runId, jobName, runDate, t⟩)

/-- Every node the walk over one run visits, with its context. -/
def annotatedNodesOfRun (rd : RunData) : List AnnotatedNode :=
  rd.results.flatMap (fun jr =>
    annotate rd.runId jr.name (dayOf rd.run.createdAt) jr.tests)

/-- Every node the aggregation over a run list visits, in visit order. -/
def annotatedNodes (runData : List RunData) : List AnnotatedNode :=
  runData.flatMap annotatedNodesOfRun

mutual

theorem insProcessTest_components (runId : ℕ) (jobName runDate : String) :
    ∀ (t : RecordedTestResult) (st : InsightsAgg),
      insProcessTest runId jobName runDate st t =
        { flakyTestsMap :=
            ((flattenTest t).map
              (fun t => (⟨runId, jobName, runDate, t⟩ : AnnotatedNode))).foldl
              flakyStep st.flakyTestsMap
          failedTestsMap :=
            ((flattenTest t).map
              (fun t => (⟨runId, jobName, runDate, t⟩ : AnnotatedNode))).foldl
              failedStep st.failedTestsMap
          jobFlakyCountsMap :=
            (insProcessTest runId jobName runDate st t).jobFlakyCountsMap }
  | .mk n p dur f i fl subs, st => by
    have hstep : insProcessTest runId jobName runDate st (.mk n p dur f i fl subs) =
        insProcessTests runId jobName runDate
          { flakyTestsMap :=
              flakyStep st.flakyTestsMap ⟨runId, jobName, runDate, .mk n p dur f i fl subs⟩
            failedTestsMap :=
              failedStep st.failedTestsMap ⟨runId, jobName, runDate, .mk n p dur f i fl subs⟩
            jobFlakyCountsMap :=
              (if flakyTruthy fl then
                upsert jobName (fun c => c + fl.getD 0) (fl.getD 0)
                  st.jobFlakyCountsMap
              else st.jobFlakyCountsMap) } subs := by
      show insProcessTests runId jobName runDate _ subs =
        insProcessTests runId jobName runDate _ subs
      congr 1
      cases hfl : flakyTruthy fl <;> cases hf : f <;>
        simp [flakyStep, failedStep, RecordedTestResult.flakyCount,
          RecordedTestResult.failed, RecordedTestResult.name,
          RecordedTestResult.path, hfl, hf]
    rw [hstep, insProcessTests_components runId jobName runDate subs _]
    have hflat : flattenTest (.mk n p dur f i fl subs) =
        RecordedTestResult.mk n p dur f i fl subs :: flattenTests subs := rfl
    rw [hflat, List.map_cons, List.foldl_cons, List.foldl_cons]
    rfl

theorem insProcessTests_components (runId : ℕ) (jobName runDate : String) :
    ∀ (ts : List RecordedTestResult) (st : InsightsAgg),
      insProcessTests runId jobName runDate st ts =
        { flakyTestsMap :=
            (annotate runId jobName runDate ts).foldl flakyStep
              st.flakyTestsMap
          failedTestsMap :=
            (annotate runId jobName runDate ts).foldl failedStep
              st.failedTestsMap
          jobFlakyCountsMap :=
            (insProcessTests runId jobName runDate st ts).jobFlakyCountsMap }
  | [], st => by
    simp [insProcessTests, annotate, flattenTests]
  | t :: ts, st => by
    have h1 : insProcessTests runId jobName runDate st (t :: ts) =
        insProcessTests runId jobName runDate
          (insProcessTest runId jobName runDate st t) ts := rfl
    have h2 : annotate runId jobName runDate (t :: ts) =
        ((flattenTest t).map
          (fun t => (⟨runId, jobName, runDate, t⟩ : AnnotatedNode))) ++
          annotate runId jobName runDate ts := by
      show (flattenTests (t :: ts)).map _ = _
      rw [show flattenTests (t :: ts) = flattenTest t ++ flattenTests ts
        from rfl, List.map_append]
      rfl
    rw [h1, insProcessTests_components runId jobName runDate ts _, h2,
      List.foldl_append, List.foldl_append,
      insProcessTest_components runId jobName runDate t st]

end

end CITestViewer
namespace CITestViewer

theorem foldl_insProcessTests_components (runId : ℕ) (dayStr : String) :
    ∀ (jrs : List ParsedTestResultArtifact) (st : InsightsAgg),
      jrs.foldl (fun st jr => insProcessTests runId jr.name dayStr st jr.tests)
          st =
        { flakyTestsMap :=
            (jrs.flatMap (fun jr => annotate runId jr.name dayStr jr.tests)).foldl
              flakyStep st.flakyTestsMap
          failedTestsMap :=
            (jrs.flatMap (fun jr => annotate runId jr.name dayStr jr.tests)).foldl
              failedStep st.failedTestsMap
          jobFlakyCountsMap :=
            (jrs.foldl
              (fun st jr => insProcessTests runId jr.name dayStr st jr.tests)
              st).jobFlakyCountsMap } := by
  intro jrs
  induction jrs with
  | nil => intro st; simp
  | cons jr jrs ih =>
    intro st
    rw [List.foldl_cons, ih, List.flatMap_cons, List.foldl_append,
      List.foldl_append, insProcessTests_components runId jr.name dayStr _ st]

theorem insightsAggregate_components (rds : List RunData) :
    insightsAggregate rds =
      { flakyTestsMap := (annotatedNodes rds).foldl flakyStep []
        failedTestsMap := (annotatedNodes rds).foldl failedStep []
        jobFlakyCountsMap := (insightsAggregate rds).jobFlakyCountsMap } := by
  have hgen : ∀ (rds : List RunData) (st : InsightsAgg),
      rds.foldl processRunData st =
        { flakyTestsMap := (annotatedNodes rds).foldl flakyStep
            st.flakyTestsMap
          failedTestsMap := (annotatedNodes rds).foldl failedStep
            st.failedTestsMap
          jobFlakyCountsMap :=
            (rds.foldl processRunData st).jobFlakyCountsMap } := by
    intro rds
    induction rds with
    | nil => intro st; simp [annotatedNodes]
    | cons rd rds ih =>
      intro st
      rw [List.foldl_cons, ih,
        show annotatedNodes (rd :: rds) =
          annotatedNodesOfRun rd ++ annotatedNodes rds from rfl,
        List.foldl_append, List.foldl_append,
        show processRunData st rd =
          rd.results.foldl
            (fun st jr =>
              insProcessTests rd.runId jr.name (dayOf rd.run.createdAt) st
                jr.tests) st from rfl,
        foldl_insProcessTests_components rd.runId (dayOf rd.run.createdAt)
          rd.results st]
      rfl
  exact hgen rds ⟨[], [], []⟩

theorem keys_foldl_flakyStep (l : List AnnotatedNode)
    (m : List (String × FlakyRec)) :
    keysOf (l.foldl flakyStep m) =
      keysOf m ++
        ((firstKeys ((l.filter
          (fun a => flakyTruthy a.test.flakyCount)).map
            (fun a => compositeKey a.test.path a.test.name))).filter
          (fun k => k ∉ keysOf m)) := by
  have h := foldl_condUpsert_keys
    (fun a : AnnotatedNode => flakyTruthy a.test.flakyCount)
    (fun a : AnnotatedNode => compositeKey a.test.path a.test.name)
    (fun a => updateFlakyRec a.runId a.jobName a.runDate
      (a.test.flakyCount.getD 0))
    (fun a => initFlakyRec a.test.name a.test.path a.runId a.jobName
      a.runDate (a.test.flakyCount.getD 0)) l m
  have hfun : (fun (m : List (String × FlakyRec)) (a : AnnotatedNode) =>
      if flakyTruthy a.test.flakyCount then
        upsert (compositeKey a.test.path a.test.name)
          (updateFlakyRec a.runId a.jobName a.runDate
            (a.test.flakyCount.getD 0))
          (initFlakyRec a.test.name a.test.path a.runId a.jobName a.runDate
            (a.test.flakyCount.getD 0)) m
      else m) = flakyStep := by
    funext m a
    rfl
  rw [← hfun]
  exact h

theorem keys_foldl_failedStep (l : List AnnotatedNode)
    (m : List (String × FailedRec)) :
    keysOf (l.foldl failedStep m) =
      keysOf m ++
        ((firstKeys ((l.filter (fun a => a.test.failed)).map
            (fun a => compositeKey a.test.path a.test.name))).filter
          (fun k => k ∉ keysOf m)) := by
  have h := foldl_condUpsert_keys (fun a : AnnotatedNode => a.test.failed)
    (fun a : AnnotatedNode => compositeKey a.test.path a.test.name)
    (fun a => updateFailedRec a.runId a.runDate)
    (fun a => initFailedRec a.test.name a.test.path a.runId a.runDate) l m
  have hfun : (fun (m : List (String × FailedRec)) (a : AnnotatedNode) =>
      if a.test.failed then
        upsert (compositeKey a.test.path a.test.name)
          (updateFailedRec a.runId a.runDate)
          (initFailedRec a.test.name a.test.path a.runId a.runDate) m
      else m) = failedStep := by
    funext m a
    rfl
  rw [← hfun]
  exact h

/-! ### The run page normalized slow-test map
(`processTestResults`, `src/routes/results/[runId].tsx`, lines 686-725) -/

/-- `isUnitTest` from `src/routes/results/[runId].tsx`. -/
def isUnitTest (t : RecordedTestResult) : Bool :=
  "unit::".data.isPrefixOf t.name.data ||
    "unit_node::".data.isPrefixOf t.name.data

/-- Insert into an ascending-sorted list of rationals. -/
def insertAsc (x : ℚ) : List ℚ → List ℚ
  | [] => [x]
  | y :: ys => if y < x then y :: insertAsc x ys else x :: y :: ys

/-- `durations.sort((a, b) => a - b)`. -/
def sortAsc : List ℚ → List ℚ
  | [] => []
  | x :: xs => insertAsc x (sortAsc xs)

/-- The median of a job: all durations (`t.duration || 0`) filtered to
positive and sorted ascending, taken at index `floor(count / 2)`; 1 when
no positive duration exists. -/
def jobMedian (allTests : List RecordedTestResult) : ℚ :=
  let ds := sortAsc ((allTests.map (fun t => t.duration.getD 0)).filter
    (fun d => 0 < d))
  ds.getD (ds.length / 2) 1

/-- The skip guards of the normalized-score loop: a test participates
when its duration is truthy and it is not a unit test. -/
def normQualifies (t : RecordedTestResult) : Bool :=
  durTruthy t.duration && !isUnitTest t

/-- The per-name record of `testNormalizedScores`: pushed scores and raw
durations, plus the path of the first encountered test of that name. -/
structure NormData where
  scores : List ℚ
  durations : List ℚ
  path : String
  deriving DecidableEq

/-- Visiting one test of a job whose median is `median`: note the map is
keyed by `test.name` alone. -/
def normStep (median : ℚ) (m : List (String × NormData))
    (t : RecordedTestResult) : List (String × NormData) :=
  if normQualifies t then
    upsert t.name
      (fun d => ⟨d.scores ++ [t.duration.getD 0 / median],
        d.durations ++ [t.duration.getD 0], d.path⟩)
      ⟨[t.duration.getD 0 / median], [t.duration.getD 0], t.path⟩ m
  else m

/-- The per-job pass of `processTestResults`: flatten the job's tests,
compute the job median, and visit every flattened test. -/
def processJobNorm (m : List (String × NormData)) (jr : JobTestResults) :
    List (String × NormData) :=
  (flattenTests jr.tests).foldl (normStep (jobMedian (flattenTests jr.tests)))
    m

/-- The `testNormalizedScores` map of `processTestResults`. -/
def testNormalizedScores (results : List JobTestResults) :
    List (String × NormData) :=
  results.foldl processJobNorm []

/-- A flattened test annotated with its job median. -/
def normAnnotated (results : List JobTestResults) :
    List (ℚ × RecordedTestResult) :=
  results.flatMap (fun jr =>
    (flattenTests jr.tests).map
      (fun t => (jobMedian (flattenTests jr.tests), t)))

/-- `normStep` on a median-annotated test. -/
def normStepPair (m : List (String × NormData))
    (x : ℚ × RecordedTestResult) : List (String × NormData) :=
  normStep x.1 m x.2

theorem testNormalizedScores_fold :
    ∀ (results : List JobTestResults) (m : List (String × NormData)),
      results.foldl processJobNorm m = (normAnnotated results).foldl
        normStepPair m := by
  intro results
  induction results with
  | nil => intro m; rfl
  | cons jr results ih =>
    intro m
    rw [List.foldl_cons, ih,
      show normAnnotated (jr :: results) =
        (flattenTests jr.tests).map
          (fun t => (jobMedian (flattenTests jr.tests), t)) ++
          normAnnotated results from rfl,
      List.foldl_append, List.foldl_map]
    rfl

theorem keys_foldl_normStepPair (l : List (ℚ × RecordedTestResult))
    (m : List (String × NormData)) :
    keysOf (l.foldl normStepPair m) =
      keysOf m ++
        ((firstKeys ((l.filter (fun x => normQualifies x.2)).map
            (fun x => x.2.name))).filter (fun k => k ∉ keysOf m)) := by
  have h := foldl_condUpsert_keys
    (fun x : ℚ × RecordedTestResult => normQualifies x.2)
    (fun x : ℚ × RecordedTestResult => x.2.name)
    (fun x d => (⟨d.scores ++ [x.2.duration.getD 0 / x.1],
      d.durations ++ [x.2.duration.getD 0], d.path⟩ : NormData))
    (fun x => (⟨[x.2.duration.getD 0 / x.1], [x.2.duration.getD 0],
      x.2.path⟩ : NormData)) l m
  have hfun : (fun (m : List (String × NormData))
      (x : ℚ × RecordedTestResult) =>
      if normQualifies x.2 then
        upsert x.2.name
          (fun d => (⟨d.scores ++ [x.2.duration.getD 0 / x.1],
            d.durations ++ [x.2.duration.getD 0], d.path⟩ : NormData))
          (⟨[x.2.duration.getD 0 / x.1], [x.2.duration.getD 0],
            x.2.path⟩ : NormData) m
      else m) = normStepPair := by
    funext m x
    rfl
  rw [← hfun]
  exact h

theorem normAnnotated_names (results : List JobTestResults) :
    ((normAnnotated results).filter (fun x => normQualifies x.2)).map
        (fun x => x.2.name) =
      results.flatMap (fun jr =>
        ((flattenTests jr.tests).filter normQualifies).map
          (fun t => t.name)) := by
  induction results with
  | nil => rfl
  | cons jr results ih =>
    rw [show normAnnotated (jr :: results) =
        (flattenTests jr.tests).map
          (fun t => (jobMedian (flattenTests jr.tests), t)) ++
          normAnnotated results from rfl,
      List.filter_append, List.map_append, ih, List.flatMap_cons]
    congr 1
    rw [List.filter_map, List.map_map]
    rfl

end CITestViewer
namespace CITestViewer

theorem string_append_cancel {a b c : String} (h : a ++ c = b ++ c) :
    a = b := by
  obtain ⟨la⟩ := a
  obtain ⟨lb⟩ := b
  obtain ⟨lc⟩ := c
  have hdata : la ++ lc = lb ++ lc := congrArg String.data h
  have : la = lb := by
    apply List.append_cancel_right hdata
  rw [this]

theorem compositeKey_same_name {n p1 p2 : String}
    (h : compositeKey p1 n = compositeKey p2 n) : p1 = p2 := by
  unfold compositeKey at h
  have h1 : (p1 ++ "::") ++ n = (p2 ++ "::") ++ n := by
    simpa [String.append_assoc] using h
  have h2 : p1 ++ "::" = p2 ++ "::" := string_append_cancel h1
  exact string_append_cancel h2

/-- C8 (amended): the Insights page flaky-test and failed-test records
are keyed by the composite string `path + "::" + name`, so two tests with
the same name but different paths always produce distinct records there;
the Run page cross-job normalized slow-test records, however, are keyed
by `test.name` alone, so such tests are accumulated into one shared
record on the run page. -/
theorem aggregation_keys_spec :
    (∀ runData : List RunData,
      keysOf (insightsAggregate runData).flakyTestsMap =
        firstKeys (((annotatedNodes runData).filter
          (fun a => flakyTruthy a.test.flakyCount)).map
          (fun a => compositeKey a.test.path a.test.name)) ∧
      keysOf (insightsAggregate runData).failedTestsMap =
        firstKeys (((annotatedNodes runData).filter
          (fun a => a.test.failed)).map
          (fun a => compositeKey a.test.path a.test.name))) ∧
    (∀ name p1 p2 : String, p1 ≠ p2 →
      compositeKey p1 name ≠ compositeKey p2 name) ∧
    (∀ results : List JobTestResults,
      keysOf (testNormalizedScores results) =
        firstKeys (results.flatMap (fun jr =>
          ((flattenTests jr.tests).filter normQualifies).map
            (fun t => t.name)))) := by
  refine ⟨fun runData => ⟨?_, ?_⟩, fun name p1 p2 hne h => ?_, fun results => ?_⟩
  · rw [insightsAggregate_components, keys_foldl_flakyStep]
    simp [keysOf]
  · rw [insightsAggregate_components]
    show keysOf ((annotatedNodes runData).foldl failedStep []) = _
    rw [keys_foldl_failedStep]
    simp [keysOf]
  · exact hne (compositeKey_same_name h)
  · unfold testNormalizedScores
    rw [testNormalizedScores_fold, keys_foldl_normStepPair,
      normAnnotated_names]
    simp [keysOf]

/-- Two jobs, each with one test named `dup-test`, in different files. -/
def normCexResults : List JobTestResults :=
  [⟨"job1", [.mk "dup-test" "a.test.ts" (some 100) false false none []]⟩,
   ⟨"job2", [.mk "dup-test" "b.test.ts" (some 200) false false none []]⟩]

/-- Counterexample for C8 as stated: on the run page, the two `dup-test`
tests — same name, different paths — are accumulated into a single
normalized-score record keyed by the bare name, not into two records
keyed by `path + "::" + name`. -/
theorem aggregation_keys_counterexample :
    keysOf (testNormalizedScores normCexResults) = ["dup-test"] ∧
    (testNormalizedScores normCexResults).length = 1 ∧
    ("a.test.ts" : String) ≠ "b.test.ts" ∧
    compositeKey "a.test.ts" "dup-test" ≠
      compositeKey "b.test.ts" "dup-test" := by
  refine ⟨by rfl, by rfl, by decide, by decide⟩

end CITestViewer
namespace CITestViewer

/-- Modelled from the spec: the query parameters of
`RealGitHubApiClient.listWorkflowRuns(perPage, page, branch?)` (§4.4) —
the `FileFetcher`-based client variant is absent from the sources, only
its tests and callers remain.  The request URL carries `per_page` and
`page`, and `branch` exactly when a branch restriction is passed. -/
def listRunsQuery (perPage page : ℕ) (branch : Option String) :
    List (String × String) :=
  [("per_page", toString perPage), ("page", toString page)] ++
    (match branch with
     | some b => [("branch", b)]
     | none => [])

/-- C9: the insights controller consults the run listing only through
the two queries `(per_page 100, page 1, branch main)` and
`(per_page 100, page 2, branch main)` — two platforms that agree on
those two queries (and on the per-run fetchers) produce identical
reports, whatever they answer elsewhere — and both request URLs carry
the `branch=main` restriction at the query level. -/
theorem insights_branch_at_query_level :
    (∀ p q : InsightsPlatform,
      p.listWorkflowRuns 100 1 (some "main") =
        q.listWorkflowRuns 100 1 (some "main") →
      p.listWorkflowRuns 100 2 (some "main") =
        q.listWorkflowRuns 100 2 (some "main") →
      p.downloadForRunId = q.downloadForRunId →
      p.listJobs = q.listJobs →
      insightsGet p = insightsGet q) ∧
    listRunsQuery 100 1 (some "main") =
      [("per_page", "100"), ("page", "1"), ("branch", "main")] ∧
    listRunsQuery 100 2 (some "main") =
      [("per_page", "100"), ("page", "2"), ("branch", "main")] ∧
    ("branch", "main") ∈ listRunsQuery 100 1 (some "main") ∧
    ("branch", "main") ∈ listRunsQuery 100 2 (some "main") := by
  refine ⟨?_, rfl, rfl, by decide, by decide⟩
  intro p q h1 h2 hd hj
  have hbody : insightsBody p = insightsBody q := by
    funext runs
    unfold insightsBody
    rw [hd, hj]
  unfold insightsGet
  rw [h1, h2, hbody]

/-- Two platforms that agree on the two main-branch queries but answer
differently elsewhere (here: an un-consulted unrestricted listing). -/
def c9PlatformA : InsightsPlatform :=
  ⟨fun perPage _page branch =>
      if branch = some "main" && perPage = 100 then Except.ok ([], 0)
      else Except.error "platform A",
    fun _ => Except.ok [], fun _ => Except.ok []⟩

/-- The second platform, differing from the first off the two queries. -/
def c9PlatformB : InsightsPlatform :=
  ⟨fun perPage _page branch =>
      if branch = some "main" && perPage = 100 then Except.ok ([], 0)
      else Except.error "platform B",
    fun _ => Except.ok [], fun _ => Except.ok []⟩

/-- Witness for C9: the two platforms agree on the consulted queries,
disagree on an unrestricted one, and yield the same insights report. -/
theorem insights_branch_at_query_level_witness :
    c9PlatformA.listWorkflowRuns 30 1 none ≠
      c9PlatformB.listWorkflowRuns 30 1 none ∧
    insightsGet c9PlatformA = insightsGet c9PlatformB := by
  constructor
  · simp [c9PlatformA, c9PlatformB]
  · exact insights_branch_at_query_level.1 c9PlatformA c9PlatformB rfl rfl
      rfl rfl

end CITestViewer
namespace CITestViewer

/-! ### Heap model of the shared parsed-artifact cache and the merge

`mergeArtifactsByJob` receives the `ParsedTestResultArtifact` objects held
in the shared artifact cache, and their `tests` arrays are mutable
JavaScript arrays.  To state that the merge never mutates them, arrays
get explicit identities: an `ArrayStore` is the heap of allocated test
arrays, and artifacts hold references into it.  `[...artifact.tests]`
allocates a fresh array with copied contents; `existing.push(...)` is an
in-place write to an existing array. -/

/-- The heap: array `r` is `arrays[r]`; reading a dangling reference
yields the empty array. -/
structure ArrayStore where
  arrays : List (List RecordedTestResult)

def readArr (st : ArrayStore) (r : ℕ) : List RecordedTestResult :=
  st.arrays.getD r []

def writeArr (st : ArrayStore) (r : ℕ) (ts : List RecordedTestResult) :
    ArrayStore :=
  ⟨st.arrays.set r ts⟩

/-- Allocate a fresh array; its reference is the previous heap size. -/
def allocArr (st : ArrayStore) (ts : List RecordedTestResult) :
    ℕ × ArrayStore :=
  (st.arrays.length, ⟨st.arrays ++ [ts]⟩)

/-- A parsed artifact whose `tests` array lives in the heap: the value
held by a cache entry or produced by the parser. -/
structure ParsedArtifactRef where
  name : String
  testsRef : ℕ
  deriving DecidableEq

/-- First-match association-list lookup (`map.get(key)`). -/
def alookup {β : Type} : List (String × β) → String → Option β
  | [], _ => none
  | (k, v) :: rest, key => if k = key then some v else alookup rest key

/-- The artifact as a value: its name and the current contents of its
tests array. -/
def derefArtifact (st : ArrayStore) (a : ParsedArtifactRef) :
    ParsedTestResultArtifact :=
  ⟨a.name, readArr st a.testsRef⟩

/-- The merged groups as values. -/
def derefGroups (st : ArrayStore) (gs : List (String × ℕ)) :
    List ParsedTestResultArtifact :=
  gs.map (fun p => ⟨p.1, readArr st p.2⟩)

/-- The loop of `mergeArtifactsByJob` on the heap: a hit pushes the
artifact's tests onto the existing group array in place; a miss
allocates a fresh copy of the artifact's tests as the new group array. -/
def mergeGroupsRefAux (st : ArrayStore) (groups : List (String × ℕ)) :
    List ParsedArtifactRef → List (String × ℕ) × ArrayStore
  | [] => (groups, st)
  | a :: rest =>
    match alookup groups (mergeKey a.name) with
    | some r =>
      mergeGroupsRefAux
        (writeArr st r (readArr st r ++ readArr st a.testsRef)) groups rest
    | none =>
      mergeGroupsRefAux (allocArr st (readArr st a.testsRef)).2
        (groups ++ [(mergeKey a.name, (allocArr st (readArr st a.testsRef)).1)])
        rest

/-- `mergeArtifactsByJob` on the heap. -/
def mergeArtifactsByJobRef (st : ArrayStore)
    (arts : List ParsedArtifactRef) : List (String × ℕ) × ArrayStore :=
  mergeGroupsRefAux st [] arts

theorem readArr_write_self (st : ArrayStore) (r : ℕ)
    (ts : List RecordedTestResult) (hr : r < st.arrays.length) :
    readArr (writeArr st r ts) r = ts := by
  simp [readArr, writeArr, List.getD, List.getElem?_set_self, hr]

theorem readArr_write_ne (st : ArrayStore) (r r2 : ℕ)
    (ts : List RecordedTestResult) (h : r2 ≠ r) :
    readArr (writeArr st r ts) r2 = readArr st r2 := by
  simp [readArr, writeArr, List.getD, List.getElem?_set_ne (fun hh => h hh.symm)]

theorem readArr_alloc_lt (st : ArrayStore) (ts : List RecordedTestResult)
    (r : ℕ) (hr : r < st.arrays.length) :
    readArr ⟨st.arrays ++ [ts]⟩ r = readArr st r := by
  simp [readArr, List.getD, List.getElem?_append_left hr]

theorem readArr_alloc_self (st : ArrayStore)
    (ts : List RecordedTestResult) :
    readArr ⟨st.arrays ++ [ts]⟩ st.arrays.length = ts := by
  simp [readArr, List.getD]

theorem length_writeArr (st : ArrayStore) (r : ℕ)
    (ts : List RecordedTestResult) :
    (writeArr st r ts).arrays.length = st.arrays.length := by
  simp [writeArr]

theorem alookup_eq_none {β : Type} (l : List (String × β)) (key : String) :
    alookup l key = none ↔ key ∉ keysOf l := by
  induction l with
  | nil => simp [alookup, keysOf]
  | cons p rest ih =>
    obtain ⟨k, v⟩ := p
    by_cases hk : k = key
    · subst hk
      simp [alookup, keysOf]
    · have hne : key ≠ k := fun h => hk h.symm
      simp [alookup, hk, keysOf, hne, ih]

theorem alookup_mem {β : Type} (l : List (String × β)) (key : String)
    (v : β) (h : alookup l key = some v) : (key, v) ∈ l := by
  induction l with
  | nil => simp [alookup] at h
  | cons p rest ih =>
    obtain ⟨k, w⟩ := p
    by_cases hk : k = key
    · subst hk
      simp [alookup] at h
      simp [h]
    · simp [alookup, hk] at h
      simp [ih h]

end CITestViewer
namespace CITestViewer

/-- The groups map as values, in pair form. -/
def derefPairs (st : ArrayStore) (gs : List (String × ℕ)) :
    List (String × List RecordedTestResult) :=
  gs.map (fun p => (p.1, readArr st p.2))

theorem keysOf_derefPairs (st : ArrayStore) (gs : List (String × ℕ)) :
    keysOf (derefPairs st gs) = keysOf gs := by
  simp [keysOf, derefPairs]

theorem derefPairs_untouched_write (st : ArrayStore) (r : ℕ)
    (ts : List RecordedTestResult) (gs : List (String × ℕ))
    (h : ∀ p ∈ gs, p.2 ≠ r) :
    derefPairs (writeArr st r ts) gs = derefPairs st gs := by
  unfold derefPairs
  exact List.map_congr_left
    (fun p hp => by rw [readArr_write_ne st r p.2 ts (h p hp)])

theorem derefPairs_alloc (st : ArrayStore) (ts : List RecordedTestResult)
    (gs : List (String × ℕ)) (h : ∀ p ∈ gs, p.2 < st.arrays.length) :
    derefPairs ⟨st.arrays ++ [ts]⟩ gs = derefPairs st gs := by
  unfold derefPairs
  exact List.map_congr_left
    (fun p hp => by rw [readArr_alloc_lt st ts p.2 (h p hp)])

theorem snd_mem_of_alookup {β : Type} (l : List (String × β)) (key : String)
    (v : β) (h : alookup l key = some v) : v ∈ l.map Prod.snd :=
  List.mem_map_of_mem Prod.snd (alookup_mem l key v h)

theorem derefPairs_write_upsert (st : ArrayStore) (gs : List (String × ℕ))
    (key : String) (r : ℕ)
    (f : List RecordedTestResult → List RecordedTestResult)
    (init : List RecordedTestResult)
    (hfind : alookup gs key = some r)
    (hnd : (gs.map Prod.snd).Nodup)
    (hr : r < st.arrays.length) :
    derefPairs (writeArr st r (f (readArr st r))) gs =
      upsert key f init (derefPairs st gs) := by
  induction gs with
  | nil => simp [alookup] at hfind
  | cons p rest ih =>
    obtain ⟨k, r0⟩ := p
    simp only [List.map_cons, List.nodup_cons] at hnd
    by_cases hk : k = key
    · subst hk
      have hval : r0 = r := by simpa [alookup] using hfind
      have hndr : r ∉ rest.map Prod.snd := hval ▸ hnd.1
      have hrest : ∀ p ∈ rest, p.2 ≠ r := fun p hp hpr =>
        hndr (hpr ▸ List.mem_map_of_mem Prod.snd hp)
      simp only [derefPairs, List.map_cons]
      rw [hval, readArr_write_self st r _ hr]
      have huw := derefPairs_untouched_write st r (f (readArr st r)) rest hrest
      simp only [derefPairs] at huw
      rw [huw]
      simp [upsert]
    · have hfind2 : alookup rest key = some r := by
        simpa [alookup, hk] using hfind
      have hrmem : r ∈ rest.map Prod.snd := snd_mem_of_alookup rest key r hfind2
      have hr0 : r0 ≠ r := fun h => hnd.1 (h ▸ hrmem)
      show (k, readArr (writeArr st r (f (readArr st r))) r0) ::
          derefPairs (writeArr st r (f (readArr st r))) rest =
        upsert key f init ((k, readArr st r0) :: derefPairs st rest)
      rw [readArr_write_ne st r r0 _ hr0, ih hfind2 hnd.2]
      simp [upsert, hk]

theorem mergeGroupsRefAux_cons (st : ArrayStore) (groups : List (String × ℕ))
    (a : ParsedArtifactRef) (rest : List ParsedArtifactRef) :
    mergeGroupsRefAux st groups (a :: rest) =
      match alookup groups (mergeKey a.name) with
      | some r =>
        mergeGroupsRefAux
          (writeArr st r (readArr st r ++ readArr st a.testsRef)) groups rest
      | none =>
        mergeGroupsRefAux ⟨st.arrays ++ [readArr st a.testsRef]⟩
          (groups ++ [(mergeKey a.name, st.arrays.length)]) rest := rfl

end CITestViewer
namespace CITestViewer

theorem derefArtifact_write_untouched (st : ArrayStore) (r : ℕ)
    (ts : List RecordedTestResult) (l : List ParsedArtifactRef)
    (h : ∀ a ∈ l, a.testsRef ≠ r) :
    l.map (derefArtifact (writeArr st r ts)) = l.map (derefArtifact st) :=
  List.map_congr_left (fun a ha => by
    unfold derefArtifact
    rw [readArr_write_ne st r a.testsRef ts (h a ha)])

theorem derefArtifact_alloc_untouched (st : ArrayStore)
    (ts : List RecordedTestResult) (l : List ParsedArtifactRef)
    (h : ∀ a ∈ l, a.testsRef < st.arrays.length) :
    l.map (derefArtifact ⟨st.arrays ++ [ts]⟩) = l.map (derefArtifact st) :=
  List.map_congr_left (fun a ha => by
    unfold derefArtifact
    rw [readArr_alloc_lt st ts a.testsRef (h a ha)])

/-- The heap-level merge loop refines the pure one: the heap never grows
below the watermark `n0`, arrays below `n0` are never written, every group
array lies at or above `n0`, group references stay distinct, and reading
the groups back gives exactly the pure `mergeGroupsAux` of the
dereferenced inputs. -/
theorem mergeGroupsRefAux_coupling (n0 : ℕ) :
    ∀ (arts : List ParsedArtifactRef) (st : ArrayStore)
      (groups : List (String × ℕ)),
      n0 ≤ st.arrays.length →
      (∀ a ∈ arts, a.testsRef < n0) →
      (∀ p ∈ groups, n0 ≤ p.2 ∧ p.2 < st.arrays.length) →
      (groups.map Prod.snd).Nodup →
      n0 ≤ (mergeGroupsRefAux st groups arts).2.arrays.length ∧
      (∀ r, r < n0 →
        readArr (mergeGroupsRefAux st groups arts).2 r = readArr st r) ∧
      (∀ p ∈ (mergeGroupsRefAux st groups arts).1,
        n0 ≤ p.2 ∧ p.2 < (mergeGroupsRefAux st groups arts).2.arrays.length) ∧
      ((mergeGroupsRefAux st groups arts).1.map Prod.snd).Nodup ∧
      derefPairs (mergeGroupsRefAux st groups arts).2
          (mergeGroupsRefAux st groups arts).1 =
        mergeGroupsAux (derefPairs st groups) (arts.map (derefArtifact st)) := by
  intro arts
  induction arts with
  | nil =>
    intro st groups hlen _ hg hnd
    refine ⟨hlen, fun r _ => rfl, hg, hnd, rfl⟩
  | cons a rest ih =>
    intro st groups hlen hin hg hnd
    rw [mergeGroupsRefAux_cons]
    cases hfind : alookup groups (mergeKey a.name) with
    | some r =>
      have hgr := hg _ (alookup_mem groups (mergeKey a.name) r hfind)
      have hain : a.testsRef < n0 := hin a (List.mem_cons_self a rest)
      have hane : a.testsRef ≠ r := Nat.ne_of_lt (lt_of_lt_of_le hain hgr.1)
      have hread : readArr (writeArr st r (readArr st r ++ readArr st a.testsRef))
          a.testsRef = readArr st a.testsRef :=
        readArr_write_ne st r a.testsRef _ hane
      obtain ⟨ih1, ih2, ih3, ih4, ih5⟩ :=
        ih (writeArr st r (readArr st r ++ readArr st a.testsRef)) groups
          (by rw [length_writeArr]; exact hlen)
          (fun x hx => hin x (List.mem_cons_of_mem a hx))
          (fun p hp => by rw [length_writeArr]; exact hg p hp)
          hnd
      refine ⟨ih1, ?_, ih3, ih4, ?_⟩
      · intro r2 hr2
        rw [ih2 r2 hr2,
          readArr_write_ne st r r2 _ (Nat.ne_of_lt (lt_of_lt_of_le hr2 hgr.1))]
      · rw [ih5]
        have hcup : derefPairs
            (writeArr st r (readArr st r ++ readArr st a.testsRef)) groups =
            upsert (mergeKey a.name) (fun ts => ts ++ readArr st a.testsRef)
              (readArr st a.testsRef) (derefPairs st groups) :=
          derefPairs_write_upsert st groups (mergeKey a.name) r
            (fun ts => ts ++ readArr st a.testsRef) (readArr st a.testsRef)
            hfind hnd hgr.2
        have hrest : rest.map (derefArtifact
            (writeArr st r (readArr st r ++ readArr st a.testsRef))) =
            rest.map (derefArtifact st) :=
          derefArtifact_write_untouched st r _ rest (fun x hx =>
            Nat.ne_of_lt (lt_of_lt_of_le (hin x (List.mem_cons_of_mem a hx)) hgr.1))
        rw [hcup, hrest, List.map_cons]
        rfl
    | none =>
      have hnotmem : mergeKey a.name ∉ keysOf groups :=
        (alookup_eq_none groups (mergeKey a.name)).mp hfind
      have hain : a.testsRef < n0 := hin a (List.mem_cons_self a rest)
      have hgl : ∀ p ∈ groups, p.2 < st.arrays.length := fun p hp => (hg p hp).2
      have hnodup2 : ((groups ++ [(mergeKey a.name, st.arrays.length)]).map
          Prod.snd).Nodup := by
        rw [List.map_append, List.nodup_append]
        refine ⟨hnd, List.nodup_singleton _, ?_⟩
        intro x hx
        simp only [List.map_cons, List.map_nil, List.mem_singleton]
        obtain ⟨p, hp, hpx⟩ := List.mem_map.mp hx
        exact fun hcon => absurd (hcon ▸ hpx ▸ hgl p hp) (lt_irrefl _)
      obtain ⟨ih1, ih2, ih3, ih4, ih5⟩ :=
        ih ⟨st.arrays ++ [readArr st a.testsRef]⟩
          (groups ++ [(mergeKey a.name, st.arrays.length)])
          (by simp; omega)
          (fun x hx => hin x (List.mem_cons_of_mem a hx))
          (fun p hp => by
            rcases List.mem_append.mp hp with hp | hp
            · have := hg p hp
              simp only [List.length_append, List.length_singleton]
              omega
            · rw [List.mem_singleton.mp hp]
              simp only [List.length_append, List.length_singleton]
              omega)
          hnodup2
      refine ⟨?_, ?_, ih3, ih4, ?_⟩
      · exact ih1
      · intro r2 hr2
        rw [ih2 r2 hr2, readArr_alloc_lt st _ r2 (lt_of_lt_of_le hr2 hlen)]
      · rw [ih5]
        have hg2 : derefPairs ⟨st.arrays ++ [readArr st a.testsRef]⟩
            (groups ++ [(mergeKey a.name, st.arrays.length)]) =
            derefPairs st groups ++
              [(mergeKey a.name, readArr st a.testsRef)] := by
          unfold derefPairs
          rw [List.map_append]
          have h1 := derefPairs_alloc st (readArr st a.testsRef) groups hgl
          unfold derefPairs at h1
          rw [h1]
          simp [readArr_alloc_self]
        have hnm : mergeKey a.name ∉ keysOf (derefPairs st groups) := by
          rw [keysOf_derefPairs]; exact hnotmem
        have hup := upsert_of_not_mem (mergeKey a.name)
          (fun ts => ts ++ readArr st a.testsRef) (readArr st a.testsRef)
          (derefPairs st groups) hnm
        have hrest : rest.map (derefArtifact ⟨st.arrays ++ [readArr st a.testsRef]⟩) =
            rest.map (derefArtifact st) :=
          derefArtifact_alloc_untouched st _ rest (fun x hx =>
            lt_of_lt_of_le (hin x (List.mem_cons_of_mem a hx)) hlen)
        rw [hg2, hrest, List.map_cons]
        show mergeGroupsAux (derefPairs st groups ++
            [(mergeKey a.name, readArr st a.testsRef)]) _ = _
        rw [← hup]
        rfl

end CITestViewer
namespace CITestViewer

/-! ### `RealTestResultsDownloader` (`src/lib/test-results-downloader.ts`)

`#downloadArtifact` keeps one `AsyncValue` per `archive_download_url` in the
shared LRU cache and reuses it on later calls, so the
`ParsedTestResultArtifact` it yields — the same object, with the same
`tests` array — is shared between calls.  The state of the downloader is
the cache (URL to parsed artifact, insertion-ordered) together with the
heap of tests arrays.  The download and unzip of one artifact is
abstracted by `parse`. -/

structure DownloaderState where
  cache : List (String × ParsedArtifactRef)
  heap : ArrayStore

def emptyDownloaderState : DownloaderState := ⟨[], ⟨[]⟩⟩

/-- Resolve each artifact through `#downloadArtifact`: a cache hit reuses
the cached parsed artifact, a miss downloads (the URL is logged), parses,
allocates the tests array and caches the result.  Returns the parsed
artifacts in input order, the final state, and the downloaded URLs in
order. -/
def resolveArtifacts (parse : Artifact → ParsedTestResultArtifact) :
    DownloaderState → List Artifact →
      List ParsedArtifactRef × DownloaderState × List String
  | ds, [] => ([], ds, [])
  | ds, a :: rest =>
    match alookup ds.cache a.archiveDownloadUrl with
    | some ref =>
      let r := resolveArtifacts parse ds rest
      (ref :: r.1, r.2.1, r.2.2)
    | none =>
      let pr := parse a
      let ref : ParsedArtifactRef := ⟨pr.name, ds.heap.arrays.length⟩
      let r := resolveArtifacts parse
        ⟨ds.cache ++ [(a.archiveDownloadUrl, ref)],
          ⟨ds.heap.arrays ++ [pr.tests]⟩⟩ rest
      (ref :: r.1, r.2.1, a.archiveDownloadUrl :: r.2.2)

/-- `RealTestResultsDownloader.downloadForRunId`: list the artifacts of
the run, keep those whose name matches `ARTIFACT_PATTERN`, resolve each
through the cache, and merge the parsed artifacts by job.  Returns the
merged groups (as references into the heap), the downloader state after
the call, and the URLs downloaded during the call. -/
def downloadForRunIdModel (parse : Artifact → ParsedTestResultArtifact)
    (artifacts : List Artifact) (ds : DownloaderState) :
    List (String × ℕ) × DownloaderState × List String :=
  let res := resolveArtifacts parse ds (matchingArtifacts artifacts)
  let merged := mergeArtifactsByJobRef res.2.1.heap res.1
  (merged.1, ⟨res.2.1.cache, merged.2⟩, res.2.2)

theorem resolveArtifacts_cons (parse : Artifact → ParsedTestResultArtifact)
    (ds : DownloaderState) (a : Artifact) (rest : List Artifact) :
    resolveArtifacts parse ds (a :: rest) =
      match alookup ds.cache a.archiveDownloadUrl with
      | some ref =>
        ((resolveArtifacts parse ds rest).1.cons ref,
          (resolveArtifacts parse ds rest).2.1,
          (resolveArtifacts parse ds rest).2.2)
      | none =>
        (ParsedArtifactRef.mk (parse a).name ds.heap.arrays.length ::
            (resolveArtifacts parse
              ⟨ds.cache ++ [(a.archiveDownloadUrl,
                ⟨(parse a).name, ds.heap.arrays.length⟩)],
                ⟨ds.heap.arrays ++ [(parse a).tests]⟩⟩ rest).1,
          (resolveArtifacts parse
            ⟨ds.cache ++ [(a.archiveDownloadUrl,
              ⟨(parse a).name, ds.heap.arrays.length⟩)],
              ⟨ds.heap.arrays ++ [(parse a).tests]⟩⟩ rest).2.1,
          a.archiveDownloadUrl ::
            (resolveArtifacts parse
              ⟨ds.cache ++ [(a.archiveDownloadUrl,
                ⟨(parse a).name, ds.heap.arrays.length⟩)],
                ⟨ds.heap.arrays ++ [(parse a).tests]⟩⟩ rest).2.2) := rfl

theorem mem_keysOf_of_alookup {β : Type} (l : List (String × β))
    (key : String) (v : β) (h : alookup l key = some v) :
    key ∈ keysOf l :=
  List.mem_map_of_mem Prod.fst (alookup_mem l key v h)

theorem alookup_append_left {β : Type} (l l2 : List (String × β))
    (key : String) (v : β) (h : alookup l key = some v) :
    alookup (l ++ l2) key = some v := by
  induction l with
  | nil => simp [alookup] at h
  | cons p rest ih =>
    obtain ⟨k, w⟩ := p
    by_cases hk : k = key
    · subst hk
      simp only [alookup, if_pos rfl] at h ⊢
      exact h
    · simp only [alookup, if_neg hk] at h ⊢
      exact ih h

theorem alookup_append_of_not_mem {β : Type} (l l2 : List (String × β))
    (key : String) (h : key ∉ keysOf l) :
    alookup (l ++ l2) key = alookup l2 key := by
  induction l with
  | nil => rfl
  | cons p rest ih =>
    obtain ⟨k, w⟩ := p
    have hk : k ≠ key := by
      intro hkk
      exact h (by simp [keysOf, hkk])
    have hrest : key ∉ keysOf rest := by
      intro hmem
      exact h (by simp [keysOf] at hmem ⊢; exact Or.inr hmem)
    simp only [List.cons_append, alookup, if_neg hk]
    exact ih hrest

theorem alookup_isSome_of_mem {β : Type} (l : List (String × β))
    (key : String) (h : key ∈ keysOf l) :
    ∃ v, alookup l key = some v := by
  cases hl : alookup l key with
  | none => exact absurd ((alookup_eq_none l key).mp hl) (by simpa using h)
  | some v => exact ⟨v, rfl⟩

end CITestViewer
namespace CITestViewer

/-- What one `downloadForRunId` pass of cache resolution does: the heap
only grows and existing arrays are untouched, the cache is only appended
to and stays valid, every processed URL ends up cached, the returned
artifacts are exactly the cache entries of the URLs in input order, and
the URLs actually downloaded are the first occurrences of the URLs that
were not yet cached. -/
theorem resolveArtifacts_spec (parse : Artifact → ParsedTestResultArtifact) :
    ∀ (arts : List Artifact) (ds : DownloaderState),
      (∀ p ∈ ds.cache, p.2.testsRef < ds.heap.arrays.length) →
      ds.heap.arrays.length ≤
        (resolveArtifacts parse ds arts).2.1.heap.arrays.length ∧
      (∀ r, r < ds.heap.arrays.length →
        readArr (resolveArtifacts parse ds arts).2.1.heap r =
          readArr ds.heap r) ∧
      (∀ p ∈ (resolveArtifacts parse ds arts).2.1.cache,
        p.2.testsRef <
          (resolveArtifacts parse ds arts).2.1.heap.arrays.length) ∧
      (∃ tail, (resolveArtifacts parse ds arts).2.1.cache =
        ds.cache ++ tail) ∧
      (∀ a ∈ arts, a.archiveDownloadUrl ∈
        keysOf (resolveArtifacts parse ds arts).2.1.cache) ∧
      (resolveArtifacts parse ds arts).1 = arts.map (fun a =>
        (alookup (resolveArtifacts parse ds arts).2.1.cache
          a.archiveDownloadUrl).getD ⟨"", 0⟩) ∧
      (∀ ref ∈ (resolveArtifacts parse ds arts).1,
        ref.testsRef <
          (resolveArtifacts parse ds arts).2.1.heap.arrays.length) ∧
      (resolveArtifacts parse ds arts).2.2 =
        (firstKeys (arts.map (fun a => a.archiveDownloadUrl))).filter
          (fun u => u ∉ keysOf ds.cache) := by
  intro arts
  induction arts with
  | nil =>
    intro ds hc
    exact ⟨le_refl _, fun r _ => rfl, hc, ⟨[], by simp [resolveArtifacts]⟩,
      by simp, rfl, by simp [resolveArtifacts], rfl⟩
  | cons a rest ih =>
    intro ds hc
    rw [resolveArtifacts_cons]
    cases hfind : alookup ds.cache a.archiveDownloadUrl with
    | some ref =>
      dsimp only
      obtain ⟨ih1, ih2, ih3, ⟨tail, htail⟩, ih5, ih6, ih7, ih8⟩ := ih ds hc
      have hmem : a.archiveDownloadUrl ∈ keysOf ds.cache :=
        mem_keysOf_of_alookup ds.cache _ ref hfind
      refine ⟨ih1, ih2, ih3, ⟨tail, htail⟩, ?_, ?_, ?_, ?_⟩
      · intro x hx
        rcases List.mem_cons.mp hx with hx | hx
        · subst hx
          rw [htail, keysOf_append]
          exact List.mem_append_left _ hmem
        · exact ih5 x hx
      · rw [List.map_cons, ← ih6]
        have hal : alookup (resolveArtifacts parse ds rest).2.1.cache
            a.archiveDownloadUrl = some ref := by
          rw [htail]
          exact alookup_append_left ds.cache tail _ ref hfind
        rw [hal]
        rfl
      · intro x hx
        rcases List.mem_cons.mp hx with hx | hx
        · subst hx
          have hx2 := hc (a.archiveDownloadUrl, x)
            (alookup_mem ds.cache _ x hfind)
          exact lt_of_lt_of_le hx2 ih1
        · exact ih7 x hx
      · rw [List.map_cons, firstKeys_cons,
          List.filter_cons_of_neg (by simp [hmem]),
          filter_ne_then_not_mem hmem, ih8]
    | none =>
      dsimp only
      have hnotmem : a.archiveDownloadUrl ∉ keysOf ds.cache :=
        (alookup_eq_none ds.cache _).mp hfind
      have hc1 : ∀ p ∈ (DownloaderState.mk
          (ds.cache ++ [(a.archiveDownloadUrl,
            ⟨(parse a).name, ds.heap.arrays.length⟩)])
          ⟨ds.heap.arrays ++ [(parse a).tests]⟩).cache,
          p.2.testsRef < (DownloaderState.mk
            (ds.cache ++ [(a.archiveDownloadUrl,
              ⟨(parse a).name, ds.heap.arrays.length⟩)])
            ⟨ds.heap.arrays ++ [(parse a).tests]⟩).heap.arrays.length := by
        intro p hp
        simp only [List.length_append, List.length_singleton]
        rcases List.mem_append.mp hp with hp | hp
        · have := hc p hp
          omega
        · rw [List.mem_singleton.mp hp]
          simp
      obtain ⟨ih1, ih2, ih3, ⟨tail, htail⟩, ih5, ih6, ih7, ih8⟩ := ih _ hc1
      have hlen1 : (DownloaderState.mk
          (ds.cache ++ [(a.archiveDownloadUrl,
            ⟨(parse a).name, ds.heap.arrays.length⟩)])
          ⟨ds.heap.arrays ++ [(parse a).tests]⟩).heap.arrays.length =
          ds.heap.arrays.length + 1 := by simp
      refine ⟨?_, ?_, ih3, ?_, ?_, ?_, ?_, ?_⟩
      · rw [hlen1] at ih1
        omega
      · intro r hr
        rw [ih2 r (by rw [hlen1]; omega)]
        exact readArr_alloc_lt ds.heap _ r hr
      · refine ⟨(a.archiveDownloadUrl,
          ⟨(parse a).name, ds.heap.arrays.length⟩) :: tail, ?_⟩
        rw [htail, List.append_assoc]
        rfl
      · intro x hx
        rcases List.mem_cons.mp hx with hx | hx
        · subst hx
          rw [htail, keysOf_append]
          refine List.mem_append_left _ ?_
          rw [keysOf_append]
          exact List.mem_append_right _ (by simp [keysOf])
        · exact ih5 x hx
      · rw [List.map_cons, ← ih6]
        have hal : alookup (ds.cache ++ [(a.archiveDownloadUrl,
            (⟨(parse a).name, ds.heap.arrays.length⟩ : ParsedArtifactRef))])
            a.archiveDownloadUrl =
            some ⟨(parse a).name, ds.heap.arrays.length⟩ := by
          rw [alookup_append_of_not_mem ds.cache _ _ hnotmem]
          simp [alookup]
        have hal2 := alookup_append_left _ tail _ _ hal
        rw [← htail] at hal2
        rw [hal2]
        rfl
      · intro x hx
        rcases List.mem_cons.mp hx with hx | hx
        · subst hx
          rw [hlen1] at ih1
          show ds.heap.arrays.length < _
          omega
        · exact ih7 x hx
      · rw [ih8, List.map_cons, firstKeys_cons,
          List.filter_cons_of_pos (by simp [hnotmem])]
        have hkeys1 : keysOf (ds.cache ++ [(a.archiveDownloadUrl,
            (⟨(parse a).name, ds.heap.arrays.length⟩ : ParsedArtifactRef))]) =
            keysOf ds.cache ++ [a.archiveDownloadUrl] := by
          rw [keysOf_append]
          rfl
        rw [hkeys1, filter_not_mem_append]

end CITestViewer
namespace CITestViewer

/-- When every URL is already cached, resolution is pure: it returns the
cached artifacts, downloads nothing and leaves the state unchanged. -/
theorem resolveArtifacts_all_hits (parse : Artifact → ParsedTestResultArtifact) :
    ∀ (arts : List Artifact) (ds : DownloaderState),
      (∀ a ∈ arts, a.archiveDownloadUrl ∈ keysOf ds.cache) →
      resolveArtifacts parse ds arts =
        (arts.map (fun a =>
          (alookup ds.cache a.archiveDownloadUrl).getD ⟨"", 0⟩), ds, []) := by
  intro arts
  induction arts with
  | nil => intro ds _; rfl
  | cons a rest ih =>
    intro ds h
    obtain ⟨ref, href⟩ := alookup_isSome_of_mem ds.cache _
      (h a (List.mem_cons_self a rest))
    rw [resolveArtifacts_cons, href]
    dsimp only
    rw [ih ds (fun x hx => h x (List.mem_cons_of_mem a hx))]
    simp [href]

end CITestViewer
namespace CITestViewer

theorem derefPairs_nil (st : ArrayStore) :
    derefPairs st ([] : List (String × ℕ)) = [] := rfl

theorem derefGroups_eq_pairs (st : ArrayStore) (gs : List (String × ℕ)) :
    derefGroups st gs =
      (derefPairs st gs).map (fun q => ⟨q.1, q.2⟩) := by
  simp [derefGroups, derefPairs]

/-- C10: `mergeArtifactsByJob` allocates a fresh tests array for every
output group and never mutates the tests arrays of its inputs, which are
the values held by the shared artifact cache; consequently the merged
groups are the pure merge of the cached parsed artifacts, a repeated
`downloadForRunId` for the same run downloads nothing, and it returns
merged results equal to those of the first call instead of accumulating
duplicated tests into the cached entries. -/
theorem downloadForRunId_no_mutation
    (parse : Artifact → ParsedTestResultArtifact) (artifacts : List Artifact)
    (ds : DownloaderState)
    (g1 g2 : List (String × ℕ)) (ds1 ds2 : DownloaderState)
    (log1 log2 : List String)
    (hc : ∀ p ∈ ds.cache, p.2.testsRef < ds.heap.arrays.length)
    (h1 : downloadForRunIdModel parse artifacts ds = (g1, ds1, log1))
    (h2 : downloadForRunIdModel parse artifacts ds1 = (g2, ds2, log2)) :
    (∀ p ∈ ds1.cache, ∀ q ∈ g1, p.2.testsRef ≠ q.2) ∧
    (∀ r, r < ds.heap.arrays.length →
      readArr ds1.heap r = readArr ds.heap r) ∧
    derefGroups ds1.heap g1 =
      mergeArtifactsByJob ((matchingArtifacts artifacts).map (fun a =>
        derefArtifact ds1.heap
          ((alookup ds1.cache a.archiveDownloadUrl).getD ⟨"", 0⟩))) ∧
    log2 = [] ∧
    derefGroups ds2.heap g2 = derefGroups ds1.heap g1 := by
  obtain ⟨r1, r2, r3, ⟨tail, htail⟩, r5, r6, r7, r8⟩ :=
    resolveArtifacts_spec parse (matchingArtifacts artifacts) ds hc
  obtain ⟨m1, m2, m3, m4, m5⟩ :=
    mergeGroupsRefAux_coupling
      (resolveArtifacts parse ds
        (matchingArtifacts artifacts)).2.1.heap.arrays.length
      (resolveArtifacts parse ds (matchingArtifacts artifacts)).1
      (resolveArtifacts parse ds (matchingArtifacts artifacts)).2.1.heap
      [] (le_refl _) r7 (fun p hp => absurd hp (List.not_mem_nil p))
      List.nodup_nil
  rw [derefPairs_nil] at m5
  simp only [downloadForRunIdModel, mergeArtifactsByJobRef,
    Prod.mk.injEq] at h1
  obtain ⟨hg1, hds1, hlog1⟩ := h1
  subst hg1
  subst hds1
  subst hlog1
  simp only [downloadForRunIdModel, mergeArtifactsByJobRef] at h2
  have hhits : ∀ a ∈ matchingArtifacts artifacts,
      a.archiveDownloadUrl ∈ keysOf (DownloaderState.mk
        (resolveArtifacts parse ds (matchingArtifacts artifacts)).2.1.cache
        (mergeGroupsRefAux (resolveArtifacts parse ds
          (matchingArtifacts artifacts)).2.1.heap []
          (resolveArtifacts parse ds
            (matchingArtifacts artifacts)).1).2).cache := r5
  rw [resolveArtifacts_all_hits parse (matchingArtifacts artifacts) _
    hhits] at h2
  dsimp only at h2
  simp only [Prod.mk.injEq] at h2
  rw [← r6] at h2
  obtain ⟨hg2, hds2, hlog2⟩ := h2
  subst hg2
  subst hds2
  subst hlog2
  obtain ⟨w1, w2, w3, w4, w5⟩ :=
    mergeGroupsRefAux_coupling
      (mergeGroupsRefAux (resolveArtifacts parse ds
        (matchingArtifacts artifacts)).2.1.heap []
        (resolveArtifacts parse ds
          (matchingArtifacts artifacts)).1).2.arrays.length
      (resolveArtifacts parse ds (matchingArtifacts artifacts)).1
      (mergeGroupsRefAux (resolveArtifacts parse ds
        (matchingArtifacts artifacts)).2.1.heap []
        (resolveArtifacts parse ds
          (matchingArtifacts artifacts)).1).2
      [] (le_refl _) (fun x hx => lt_of_lt_of_le (r7 x hx) m1)
      (fun p hp => absurd hp (List.not_mem_nil p)) List.nodup_nil
  rw [derefPairs_nil] at w5
  refine ⟨?_, ?_, ?_, rfl, ?_⟩
  · intro p hp q hq
    exact Nat.ne_of_lt (lt_of_lt_of_le (r3 p hp) (m3 q hq).1)
  · intro r hr
    show readArr (mergeGroupsRefAux _ [] _).2 r = _
    rw [m2 r (lt_of_lt_of_le hr r1)]
    exact r2 r hr
  · rw [derefGroups_eq_pairs, m5]
    have hL : (matchingArtifacts artifacts).map (fun a =>
        derefArtifact (DownloaderState.mk
          (resolveArtifacts parse ds (matchingArtifacts artifacts)).2.1.cache
          (mergeGroupsRefAux (resolveArtifacts parse ds
            (matchingArtifacts artifacts)).2.1.heap []
            (resolveArtifacts parse ds
              (matchingArtifacts artifacts)).1).2).heap
          ((alookup (DownloaderState.mk
            (resolveArtifacts parse ds
              (matchingArtifacts artifacts)).2.1.cache
            (mergeGroupsRefAux (resolveArtifacts parse ds
              (matchingArtifacts artifacts)).2.1.heap []
              (resolveArtifacts parse ds
                (matchingArtifacts artifacts)).1).2).cache
            a.archiveDownloadUrl).getD ⟨"", 0⟩)) =
        (resolveArtifacts parse ds (matchingArtifacts artifacts)).1.map
          (derefArtifact (resolveArtifacts parse ds
            (matchingArtifacts artifacts)).2.1.heap) := by
      have hstep : ∀ a ∈ matchingArtifacts artifacts,
          derefArtifact (mergeGroupsRefAux (resolveArtifacts parse ds
            (matchingArtifacts artifacts)).2.1.heap []
            (resolveArtifacts parse ds
              (matchingArtifacts artifacts)).1).2
            ((alookup (resolveArtifacts parse ds
              (matchingArtifacts artifacts)).2.1.cache
              a.archiveDownloadUrl).getD ⟨"", 0⟩) =
          derefArtifact (resolveArtifacts parse ds
            (matchingArtifacts artifacts)).2.1.heap
            ((alookup (resolveArtifacts parse ds
              (matchingArtifacts artifacts)).2.1.cache
              a.archiveDownloadUrl).getD ⟨"", 0⟩) := by
        intro a ha
        obtain ⟨v, hv⟩ := alookup_isSome_of_mem _ _ (r5 a ha)
        rw [hv]
        simp only [Option.getD_some]
        unfold derefArtifact
        have hv2 : v.testsRef <
            (resolveArtifacts parse ds
              (matchingArtifacts artifacts)).2.1.heap.arrays.length :=
          r3 (a.archiveDownloadUrl, v) (alookup_mem _ _ v hv)
        rw [m2 _ hv2]
      calc (matchingArtifacts artifacts).map _
          = (matchingArtifacts artifacts).map (fun a =>
              derefArtifact (resolveArtifacts parse ds
                (matchingArtifacts artifacts)).2.1.heap
                ((alookup (resolveArtifacts parse ds
                  (matchingArtifacts artifacts)).2.1.cache
                  a.archiveDownloadUrl).getD ⟨"", 0⟩)) :=
            List.map_congr_left hstep
        _ = _ := by rw [r6, List.map_map]; rfl
    rw [hL]
    rfl
  · rw [derefGroups_eq_pairs, derefGroups_eq_pairs, m5, w5]
    have hmapeq : (resolveArtifacts parse ds
        (matchingArtifacts artifacts)).1.map
        (derefArtifact (mergeGroupsRefAux (resolveArtifacts parse ds
          (matchingArtifacts artifacts)).2.1.heap []
          (resolveArtifacts parse ds
            (matchingArtifacts artifacts)).1).2) =
        (resolveArtifacts parse ds (matchingArtifacts artifacts)).1.map
          (derefArtifact (resolveArtifacts parse ds
            (matchingArtifacts artifacts)).2.1.heap) :=
      List.map_congr_left (fun x hx => by
        unfold derefArtifact
        rw [m2 _ (r7 x hx)])
    rw [hmapeq]

end CITestViewer
namespace CITestViewer

def c10Test : RecordedTestResult := .mk "t" "p" none false false none []

def c10Artifact : Artifact :=
  ⟨1, "test-results-ci.json", 10, "u", "u1", false, "", "", ""⟩

def c10Arts : List Artifact := [c10Artifact]

def c10Parse : Artifact → ParsedTestResultArtifact :=
  fun _ => ⟨"test-results-ci.json", [c10Test]⟩

def c10Ds1 : DownloaderState :=
  ⟨[("u1", ⟨"test-results-ci.json", 0⟩)], ⟨[[c10Test], [c10Test]]⟩⟩

def c10G1 : List (String × ℕ) := [("test-results-ci.json", 1)]

def c10Ds2 : DownloaderState :=
  ⟨[("u1", ⟨"test-results-ci.json", 0⟩)], ⟨[[c10Test], [c10Test], [c10Test]]⟩⟩

def c10G2 : List (String × ℕ) := [("test-results-ci.json", 2)]

end CITestViewer
namespace CITestViewer

/-- Witness for `downloadForRunId_no_mutation`: one matching artifact,
downloaded from an empty cache and merged twice. -/
theorem downloadForRunId_no_mutation_witness :
    (∀ p ∈ emptyDownloaderState.cache,
      p.2.testsRef < emptyDownloaderState.heap.arrays.length) ∧
    downloadForRunIdModel c10Parse c10Arts emptyDownloaderState =
      (c10G1, c10Ds1, ["u1"]) ∧
    downloadForRunIdModel c10Parse c10Arts c10Ds1 =
      (c10G2, c10Ds2, ([] : List String)) ∧
    ((∀ p ∈ c10Ds1.cache, ∀ q ∈ c10G1, p.2.testsRef ≠ q.2) ∧
      (∀ r, r < emptyDownloaderState.heap.arrays.length →
        readArr c10Ds1.heap r = readArr emptyDownloaderState.heap r) ∧
      derefGroups c10Ds1.heap c10G1 =
        mergeArtifactsByJob ((matchingArtifacts c10Arts).map (fun a =>
          derefArtifact c10Ds1.heap
            ((alookup c10Ds1.cache a.archiveDownloadUrl).getD ⟨"", 0⟩))) ∧
      ([] : List String) = [] ∧
      derefGroups c10Ds2.heap c10G2 = derefGroups c10Ds1.heap c10G1) :=
  ⟨fun p hp => absurd hp (List.not_mem_nil p), rfl, rfl,
    downloadForRunId_no_mutation c10Parse c10Arts emptyDownloaderState
      c10G1 c10G2 c10Ds1 c10Ds2 ["u1"] []
      (fun p hp => absurd hp (List.not_mem_nil p)) rfl rfl⟩

end CITestViewer
namespace CITestViewer

/-- The five-artifact set named by the specification. -/
def c3Artifacts : List Artifact :=
  [⟨1, "test-results-ci.json", 10, "https://example.com/ci",
      "https://example.com/ci.zip", false, "", "", ""⟩,
   ⟨2, "coverage-report.json", 10, "https://example.com/cov",
      "https://example.com/cov.zip", false, "", "", ""⟩,
   ⟨3, "build-output.zip", 10, "https://example.com/build",
      "https://example.com/build.zip", false, "", "", ""⟩,
   ⟨4, "test-results.json", 10, "https://example.com/tr",
      "https://example.com/tr.zip", false, "", "", ""⟩,
   ⟨5, "test-results-windows", 10, "https://example.com/win",
      "https://example.com/win.zip", false, "", "", ""⟩]

def c3Parse : Artifact → ParsedTestResultArtifact := fun a => ⟨a.name, []⟩

/-- C3 (counterexample): `ARTIFACT_PATTERN` does not match
`test-results.json` — the pattern requires the literal `test-results-`
before the `.json` suffix — so of the five listed artifacts only
`test-results-ci.json` is downloaded; the `test-results.json` URL is
never fetched. -/
theorem downloader_filter_counterexample :
    artifactPatternTest "test-results-ci.json" = true ∧
    artifactPatternTest "test-results.json" = false ∧
    artifactPatternTest "coverage-report.json" = false ∧
    artifactPatternTest "build-output.zip" = false ∧
    artifactPatternTest "test-results-windows" = false ∧
    (downloadForRunIdModel c3Parse c3Artifacts emptyDownloaderState).2.2 =
      ["https://example.com/ci.zip"] ∧
    "https://example.com/tr.zip" ∉
      (downloadForRunIdModel c3Parse c3Artifacts emptyDownloaderState).2.2 := by
  refine ⟨rfl, rfl, rfl, rfl, rfl, rfl, ?_⟩
  intro h
  rw [show (downloadForRunIdModel c3Parse c3Artifacts
    emptyDownloaderState).2.2 = ["https://example.com/ci.zip"] from rfl] at h
  simp at h

/-- C3 (amended): starting from an empty cache, `downloadForRunId`
downloads exactly the artifacts whose names match the anchored pattern
`test-results-.*\.json` — one fetch per distinct URL, in encounter
order — and silently ignores all others; for the five listed artifacts
only `test-results-ci.json` matches, so only its URL is downloaded. -/
theorem downloader_filter_spec :
    (∀ (parse : Artifact → ParsedTestResultArtifact)
      (artifacts : List Artifact),
      (downloadForRunIdModel parse artifacts emptyDownloaderState).2.2 =
        firstKeys ((artifacts.filter (fun a =>
          artifactPatternTest a.name)).map
            (fun a => a.archiveDownloadUrl))) ∧
    (c3Artifacts.filter (fun a => artifactPatternTest a.name)).map
      (fun a => a.name) = ["test-results-ci.json"] ∧
    (downloadForRunIdModel c3Parse c3Artifacts emptyDownloaderState).2.2 =
      ["https://example.com/ci.zip"] := by
  refine ⟨?_, rfl, rfl⟩
  intro parse artifacts
  obtain ⟨r1, r2, r3, r4, r5, r6, r7, r8⟩ :=
    resolveArtifacts_spec parse (matchingArtifacts artifacts)
      emptyDownloaderState
      (fun p hp => absurd hp (List.not_mem_nil p))
  show (resolveArtifacts parse emptyDownloaderState
    (matchingArtifacts artifacts)).2.2 = _
  rw [r8]
  show List.filter _ _ = _
  rw [List.filter_eq_self.mpr]
  · rfl
  · intro u _
    simp [emptyDownloaderState, keysOf]

end CITestViewer
